import Mathlib

/-!
# Branca tokens: a shallow embedding of `internal/basex/basex.go` and `branca.go`

Go byte slices and strings are lists of bytes (`Fin 256`).  A Go call either
returns, or panics at run time (index out of range), or keeps looping; the
type `Outcome` records which.  The two carry-draining loops of the codec
(`for carry > 0` and `for value > 0`) take an iteration budget `fuel`, and
report `Outcome.spin` when the budget is used up.  The Go `int` values of
the codec (`carry`, `value`, the digits) are natural numbers.  A Go result
pair `([]byte, error)` is a pair of options, `none` standing for `nil`.
-/

/-- One Go `byte`. -/
abbrev Byte := Fin 256

/-- Go conversion `byte(n)` of a non-negative integer: truncation to eight bits. -/
def byte (n : Nat) : Byte := ⟨n % 256, Nat.mod_lt n (by decide)⟩

/-- Bytes of an ASCII string literal (one byte per character). -/
def ascii (s : String) : List Byte := s.toList.map (fun c => byte c.toNat)

/-- Contents of a possibly-nil Go slice: `none` is the nil slice, which has no elements. -/
def bytesOf : Option (List Byte) → List Byte
  | none => []
  | some bs => bs

/-- Result of running a Go call: it returns a value, panics, or exhausts its loop budget. -/
inductive Outcome (α : Type) where
  | ret : α → Outcome α
  | panic : Outcome α
  | spin : Outcome α
  deriving DecidableEq

/-- Sequencing of Go statements: a panic or an exhausted budget ends the run. -/
def Outcome.bind {α β : Type} : Outcome α → (α → Outcome β) → Outcome β
  | .ret a, f => f a
  | .panic, _ => .panic
  | .spin, _ => .spin

/-- Go indexing `xs[i]`: panics when `i` is out of range. -/
def index {α : Type} (xs : List α) (i : Nat) : Outcome α :=
  match xs[i]? with
  | some x => .ret x
  | none => .panic

namespace basex

/-- The Go struct `Encoding`; `alphabetMap` is the `[128]byte` reverse table
(entry `c` holds 1 + the digit of character `c`, or 0). -/
structure Encoding where
  base : Nat
  alphabet : List Byte
  alphabetMap : List Byte
  zero : Byte
  deriving DecidableEq

/-- Loop `for i := 0; i < len(alphabet); i++` of `NewEncoding`, run on the
characters still to visit, from index `i`. -/
def NewEncoding.loop : List Byte → Nat → Encoding → Outcome (Option Encoding × Option String)
  | [], _, e => .ret (some e, none)
  | b :: rest, i, e =>
    if b.val ≥ 128 then .ret (none, some "out of range alphabet character")
    else
      match e.alphabetMap[b.val]? with
      | none => .panic
      | some m =>
        if m.val > 0 then .ret (none, some "duplicate character found in alphabet")
        else NewEncoding.loop rest (i + 1)
          { e with alphabetMap := e.alphabetMap.set b.val (byte i + 1) }

/-- Go `NewEncoding(alphabet)`, returning the pair `(*Encoding, error)`. -/
def NewEncoding (alphabet : List Byte) : Outcome (Option Encoding × Option String) :=
  if alphabet.length = 0 then .ret (none, some "empty alphabet")
  else if alphabet.length > 128 then .ret (none, some "alphabet too large")
  else
    match alphabet[0]? with
    | none => .panic
    | some z =>
      NewEncoding.loop alphabet 0
        { base := alphabet.length, alphabet := alphabet,
          alphabetMap := List.replicate 128 0, zero := z }

/-- The reverse table of an alphabet in closed form: entry `c` is 1 + the
position of character `c` in the alphabet, or 0 when `c` is not in it. -/
def tableOf (alphabet : List Byte) : List Byte :=
  (List.range 128).map (fun c =>
    if byte c ∈ alphabet then byte (List.indexOf (byte c) alphabet + 1) else 0)

/-- The `Encoding` of an alphabet in closed form. -/
def encodingOf (alphabet : List Byte) : Encoding :=
  { base := alphabet.length, alphabet := alphabet, alphabetMap := tableOf alphabet,
    zero := alphabet.headD 0 }

/-- What `NewEncoding alphabet` establishes about the `Encoding` it returns. -/
structure Built (alphabet : List Byte) (e : Encoding) : Prop where
  base_eq : e.base = alphabet.length
  alphabet_eq : e.alphabet = alphabet
  zero_eq : alphabet[0]? = some e.zero
  len_pos : 0 < alphabet.length
  len_le : alphabet.length ≤ 128
  ascii : ∀ c ∈ alphabet, c.val < 128
  nodup : alphabet.Nodup
  map_len : e.alphabetMap.length = 128
  map_in : ∀ k (h : k < alphabet.length), e.alphabetMap[(alphabet[k]).val]? = some (byte (k + 1))
  map_out : ∀ c : Byte, c.val < 128 → c ∉ alphabet → e.alphabetMap[c.val]? = some 0

/-- Little-endian digits of `n` in the given radix, the number zero being
written with the single digit 0. -/
def norm (radix n : Nat) : List Nat := if n = 0 then [0] else Nat.digits radix n

/-- The `k` lowest digits of `n` in the given radix, lowest first. -/
def firstDigits (radix : Nat) : Nat → Nat → List Nat
  | 0, _ => []
  | k + 1, n => n % radix :: firstDigits radix k (n / radix)

/-- Number of leading elements satisfying `p`, the last element never counted. -/
def leading {α : Type} (p : α → Bool) : List α → Nat
  | x :: y :: rest => if p x then leading p (y :: rest) + 1 else 0
  | _ => 0

/-- Change of radix with leading-zero preservation, on digit lists written most
significant first: every leading zero digit but the last element is kept as
a zero digit, and the number is written after them in radix `t`. -/
def convert (f t : Nat) (xs : List Nat) : List Nat :=
  if xs = [] then []
  else List.replicate (leading (fun x => x == 0) xs) 0 ++ (norm t (Nat.ofDigits f xs.reverse)).reverse

/-- Inner loop `for j := 0; j < len(digits); j++` of `Encode`: the updated
digits and the carry left over.  For every `Encoding` built by `NewEncoding`
the base is positive, so `%` and `/` never divide by zero. -/
def Encode.inner (base : Nat) : List Nat → Nat → List Nat × Nat
  | [], carry => ([], carry)
  | d :: digits, carry =>
    let carry := carry + (d <<< 8)
    let r := Encode.inner base digits (carry / base)
    (carry % base :: r.1, r.2)

/-- Loop `for carry > 0` of `Encode`, with at most `fuel` iterations. -/
def Encode.drain (base : Nat) : Nat → List Nat → Nat → Outcome (List Nat)
  | 0, digits, carry => if carry > 0 then .spin else .ret digits
  | fuel + 1, digits, carry =>
    if carry > 0 then Encode.drain base fuel (digits ++ [carry % base]) (carry / base)
    else .ret digits

/-- Loop `for i := 0; i < len(source); i++` of `Encode`, on the bytes still to visit. -/
def Encode.scan (base fuel : Nat) : List Byte → List Nat → Outcome (List Nat)
  | [], digits => .ret digits
  | b :: source, digits =>
    match Encode.drain base fuel (Encode.inner base digits b.val).1
        (Encode.inner base digits b.val).2 with
    | .ret digits => Encode.scan base fuel source digits
    | .panic => .panic
    | .spin => .spin

/-- Loop `for k := 0; source[k] == 0 && k < len(source)-1; k++` of `Encode`;
`n` bounds the number of times the condition is tested. -/
def Encode.zeros (zero : Byte) (source : List Byte) : Nat → Nat → List Byte → Outcome (List Byte)
  | 0, _, _ => .spin
  | n + 1, k, res =>
    match index source k with
    | .ret x =>
      if x = 0 ∧ k < source.length - 1 then Encode.zeros zero source n (k + 1) (res ++ [zero])
      else .ret res
    | .panic => .panic
    | .spin => .spin

/-- Loop `for q := len(digits) - 1; q >= 0; q--` of `Encode`; the counter is `q + 1`. -/
def Encode.emit (alphabet : List Byte) (digits : List Nat) : Nat → List Byte → Outcome (List Byte)
  | 0, res => .ret res
  | q + 1, res =>
    match index digits q with
    | .ret d =>
      match index alphabet d with
      | .ret c => Encode.emit alphabet digits q (res ++ [c])
      | .panic => .panic
      | .spin => .spin
    | .panic => .panic
    | .spin => .spin

/-- Go `(e *Encoding) Encode(source)`. -/
def Encoding.Encode (e : Encoding) (fuel : Nat) (source : List Byte) : Outcome (List Byte) :=
  if source.length = 0 then .ret []
  else
    match Encode.scan e.base fuel source [0] with
    | .ret digits =>
      match Encode.zeros e.zero source (source.length + 1) 0 [] with
      | .ret res => Encode.emit e.alphabet digits digits.length res
      | .panic => .panic
      | .spin => .spin
    | .panic => .panic
    | .spin => .spin

/-- Inner loop `for j := 0; j < len(bytes); j++` of `Decode`: the updated
bytes and the value left over. -/
def Decode.inner (base : Nat) : List Byte → Nat → List Byte × Nat
  | [], value => ([], value)
  | b :: bytes, value =>
    let value := value + b.val * base
    let r := Decode.inner base bytes (value >>> 8)
    (byte (value &&& 0xff) :: r.1, r.2)

/-- Loop `for value > 0` of `Decode`, with at most `fuel` iterations. -/
def Decode.drain : Nat → List Byte → Nat → Outcome (List Byte)
  | 0, bytes, value => if value > 0 then .spin else .ret bytes
  | fuel + 1, bytes, value =>
    if value > 0 then Decode.drain fuel (bytes ++ [byte (value &&& 0xff)]) (value >>> 8)
    else .ret bytes

/-- Loop `for i := 0; i < len(source); i++` of `Decode`, on the characters
still to visit; `Except.error` is the early `return nil, errors.New(...)`. -/
def Decode.scan (e : Encoding) (fuel : Nat) :
    List Byte → List Byte → Outcome (Except String (List Byte))
  | [], bytes => .ret (.ok bytes)
  | c :: source, bytes =>
    if c.val ≥ e.alphabetMap.length then .ret (.error "unexpected character found")
    else
      match index e.alphabetMap c.val with
      | .ret m =>
        if m.val = 0 then .ret (.error "unexpected character found")
        else
          match Decode.drain fuel (Decode.inner e.base bytes (m.val - 1)).1
              (Decode.inner e.base bytes (m.val - 1)).2 with
          | .ret bytes => Decode.scan e fuel source bytes
          | .panic => .panic
          | .spin => .spin
      | .panic => .panic
      | .spin => .spin

/-- Loop `for k := 0; source[k] == e.zero && k < len(source)-1; k++` of
`Decode`; `n` bounds the number of times the condition is tested. -/
def Decode.zeros (zero : Byte) (source : List Byte) : Nat → Nat → List Byte → Outcome (List Byte)
  | 0, _, _ => .spin
  | n + 1, k, bytes =>
    match index source k with
    | .ret c =>
      if c = zero ∧ k < source.length - 1 then Decode.zeros zero source n (k + 1) (bytes ++ [0])
      else .ret bytes
    | .panic => .panic
    | .spin => .spin

/-- Loop `for i, j := 0, len(bytes)-1; i < j; i, j = i+1, j-1` of `Decode`
(in-place reversal); `n` bounds the number of times the condition is tested. -/
def Decode.reverse : Nat → Nat → Nat → List Byte → Outcome (List Byte)
  | 0, _, _, _ => .spin
  | n + 1, i, j, bytes =>
    if i < j then
      match index bytes i with
      | .ret x =>
        match index bytes j with
        | .ret y => Decode.reverse n (i + 1) (j - 1) ((bytes.set i y).set j x)
        | .panic => .panic
        | .spin => .spin
      | .panic => .panic
      | .spin => .spin
    else .ret bytes

/-- Go `(e *Encoding) Decode(source)`, returning the pair `([]byte, error)`. -/
def Encoding.Decode (e : Encoding) (fuel : Nat) (source : List Byte) :
    Outcome (Option (List Byte) × Option String) :=
  if source.length = 0 then .ret (some [], none)
  else
    match Decode.scan e fuel source [0] with
    | .ret (.error msg) => .ret (none, some msg)
    | .ret (.ok bytes) =>
      match Decode.zeros e.zero source (source.length + 1) 0 bytes with
      | .ret bytes =>
        match Decode.reverse (bytes.length + 1) 0 (bytes.length - 1) bytes with
        | .ret bytes => .ret (some bytes, none)
        | .panic => .panic
        | .spin => .spin
      | .panic => .panic
      | .spin => .spin
    | .panic => .panic
    | .spin => .spin

end basex

/-- Go `time.Time`, as an instant: `sec` counts seconds since January 1, year 1,
00:00:00 UTC and `nsec` the nanoseconds within the second (the location is
not part of the instant). -/
structure Time where
  sec : Int
  nsec : Nat
  deriving DecidableEq

namespace Time

/-- Seconds from January 1, year 1 to January 1, 1970 (`unixToInternal` of package `time`). -/
def unixToInternal : Int := 62135596800

/-- Go `time.Time{}`, the zero time. -/
def zero : Time := { sec := 0, nsec := 0 }

/-- Go `t.IsZero()`. -/
def IsZero (t : Time) : Bool := t.sec == 0 && t.nsec == 0

/-- Go `t.Unix()`: seconds elapsed since January 1, 1970 UTC. -/
def Unix (t : Time) : Int := t.sec - unixToInternal

/-- Go `time.Unix(sec, 0)`. -/
def ofUnix (sec : Int) : Time := { sec := sec + unixToInternal, nsec := 0 }

end Time

/-- Go conversion `uint32(x)` of an `int64`. -/
def uint32 (x : Int) : Nat := (x % 4294967296).toNat

/-- Go `binary.BigEndian.PutUint32(b, v)` on a slice `b` of at least four bytes. -/
def PutUint32 (b : List Byte) (v : Nat) : List Byte :=
  [byte (v >>> 24), byte (v >>> 16), byte (v >>> 8), byte v] ++ b.drop 4

/-- Go `binary.BigEndian.Uint32(b)` on a slice `b` of at least four bytes. -/
def Uint32 (b : List Byte) : Outcome Nat :=
  match b with
  | b0 :: b1 :: b2 :: b3 :: _ => .ret (b3.val + b2.val * 2 ^ 8 + b1.val * 2 ^ 16 + b0.val * 2 ^ 24)
  | _ => .panic

/-- Go builtin `copy(dst, src)`: the contents of `dst` afterwards. -/
def copy (dst src : List Byte) : List Byte := src.take dst.length ++ dst.drop src.length

/-- Go interface `cipher.AEAD`, as far as `branca.go` uses it.  `Seal dst nonce
plaintext additionalData` returns the extended slice; `Open dst nonce
ciphertext additionalData` returns the pair `([]byte, error)`, the error
given by its message.  Either may panic. -/
structure AEAD where
  Seal : List Byte → List Byte → List Byte → List Byte → Outcome (List Byte)
  Open : Option (List Byte) → List Byte → List Byte → List Byte →
    Outcome (Option (List Byte) × Option String)

/-- The part of the `cipher.AEAD` contract that the envelope relies on, which
XChaCha20-Poly1305 provides: with a 24-byte nonce, `Seal` appends to `dst`
a ciphertext as long as the plaintext plus a 16-byte tag, and `Open` with
the same nonce and additional data gives the plaintext back without error. -/
structure AEAD.Lawful (a : AEAD) : Prop where
  seal_open : ∀ (dst nonce plaintext ad : List Byte), nonce.length = 24 →
    ∃ ct, a.Seal dst nonce plaintext ad = .ret (dst ++ ct) ∧
      ct.length = plaintext.length + 16 ∧
      ∃ out, a.Open none nonce ct ad = .ret (out, none) ∧ bytesOf out = plaintext

namespace branca

/-- Constant `version` of `branca.go`. -/
def version : Byte := 0xBA

/-- Constant `base62` of `branca.go`. -/
def base62 : List Byte := ascii "0123456789ABCDEFGHIJKLMNOPQRSTUVWXYZabcdefghijklmnopqrstuvwxyz"

/-- Go `error` values that the functions of `branca.go` return: the two
package variables, or an error handed back by the AEAD. -/
inductive Error where
  | errInvalidToken : Error
  | errInvalidTokenVersion : Error
  | aead : String → Error
  deriving DecidableEq

/-- Message of an error (`err.Error()`). -/
def Error.message : Error → String
  | .errInvalidToken => "invalid base62 token"
  | .errInvalidTokenVersion => "invalid token version"
  | .aead msg => msg

/-- Package variable `base62Enc`; its initialiser panics when `NewEncoding` fails. -/
def base62Enc : Outcome basex.Encoding :=
  match basex.NewEncoding base62 with
  | .ret (_, some _) => .panic
  | .ret (some b, none) => .ret b
  | .ret (none, none) => .panic
  | .panic => .panic
  | .spin => .spin

/-- Go `Base62(data)`. -/
def Base62 (fuel : Nat) (data : List Byte) : Outcome (List Byte) :=
  match base62Enc with
  | .ret enc => enc.Encode fuel data
  | .panic => .panic
  | .spin => .spin

/-- The Go struct `Branca`. -/
structure Branca where
  encrypter : AEAD

/-- A Go `[24]byte` nonce. -/
abbrev Nonce := { l : List Byte // l.length = 24 }

/-- A Go `[32]byte` key. -/
abbrev Key := { l : List Byte // l.length = 32 }

/-- Go `New(key)`; `NewX` stands for `chacha20poly1305.NewX`, which returns
the pair `(cipher.AEAD, error)`. -/
def New (NewX : List Byte → Option AEAD × Option String) (key : Key) : Outcome Branca :=
  match NewX key.val with
  | (_, some _) => .panic
  | (some encrypter, none) => .ret { encrypter := encrypter }
  | (none, none) => .panic

/-- Go `(b *Branca) EncodeToRawAtTime(payload, nonce, t)`. -/
def Branca.EncodeToRawAtTime (b : Branca) (payload : List Byte) (nonce : Nonce) (t : Time) :
    Outcome (List Byte) :=
  let timestamp : Nat := if !t.IsZero then uint32 t.Unix else 0
  let header := List.replicate (1 + 4 + 24 + payload.length + 16) (0 : Byte)
  let header := header.set 0 version
  let header := header.take 1 ++ PutUint32 ((header.drop 1).take 4) timestamp ++ header.drop 5
  let header := header.take 5 ++ copy (header.drop 5) nonce.val
  b.encrypter.Seal (header.take (1 + 4 + 24)) nonce.val payload (header.take (1 + 4 + 24))

/-- Go `(b *Branca) DecodeRaw(data)`, returning the triple `([]byte, time.Time, error)`. -/
def Branca.DecodeRaw (b : Branca) (data : List Byte) :
    Outcome (Option (List Byte) × Time × Option Error) :=
  if data.length < 1 + 4 + 24 + 16 then .ret (none, Time.zero, some .errInvalidToken)
  else
    let header := data.take (1 + 4 + 24)
    match b.encrypter.Open none ((header.take (1 + 4 + 24)).drop (1 + 4))
        (data.drop (1 + 4 + 24)) header with
    | .ret (_, some err) => .ret (none, Time.zero, some (.aead err))
    | .ret (payload, none) =>
      match index header 0 with
      | .ret v =>
        if v ≠ version then .ret (none, Time.zero, some .errInvalidTokenVersion)
        else
          match Uint32 ((data.take (1 + 4)).drop 1) with
          | .ret timestamp =>
            .ret (payload, if (timestamp : Int) ≠ 0 then Time.ofUnix timestamp else Time.zero, none)
          | .panic => .panic
          | .spin => .spin
      | .panic => .panic
      | .spin => .spin
    | .panic => .panic
    | .spin => .spin

/-- Go `(b *Branca) Decode(token)`. -/
def Branca.Decode (b : Branca) (fuel : Nat) (token : List Byte) :
    Outcome (Option (List Byte) × Time × Option Error) :=
  match base62Enc with
  | .ret enc =>
    match enc.Decode fuel token with
    | .ret (_, some _) => .ret (none, Time.zero, some .errInvalidToken)
    | .ret (data, none) => b.DecodeRaw (bytesOf data)
    | .panic => .panic
    | .spin => .spin
  | .panic => .panic
  | .spin => .spin

/-- Tag of the toy AEAD: sixteen copies of a checksum of nonce, plaintext and
associated data. -/
def toyTag (nonce plaintext ad : List Byte) : List Byte :=
  List.replicate 16 (byte ((nonce ++ plaintext ++ ad).foldl (fun acc x => acc + x.val) 7))

/-- A toy AEAD used to instantiate the theorems: `Seal` appends the plaintext
and its `toyTag`; `Open` checks the tag and returns the plaintext. -/
def toyAEAD : AEAD where
  Seal := fun dst nonce plaintext ad => .ret (dst ++ plaintext ++ toyTag nonce plaintext ad)
  Open := fun dst nonce ciphertext ad =>
    if ciphertext.length < 16 then .ret (none, some "toy: message authentication failed")
    else if ciphertext.drop (ciphertext.length - 16)
        = toyTag nonce (ciphertext.take (ciphertext.length - 16)) ad then
      .ret (some (bytesOf dst ++ ciphertext.take (ciphertext.length - 16)), none)
    else .ret (none, some "toy: message authentication failed")

/-- An AEAD whose `Seal` and `Open` panic whenever they are called. -/
def panickingAEAD : AEAD where
  Seal := fun _ _ _ _ => .panic
  Open := fun _ _ _ _ => .panic

/-- A stand-in for `chacha20poly1305.NewX` that returns the toy AEAD for every key. -/
def toyNewX : List Byte → Option AEAD × Option String := fun _ => (some toyAEAD, none)

/-- The key of `branca_test.go`. -/
def testKey : Key := ⟨ascii "supersecretkeyyoushouldnotcommit", by decide⟩

/-- The nonce of `TestVector1`. -/
def testNonce : Nonce :=
  ⟨[1, 2, 3, 4, 5, 6, 7, 8, 9, 10, 11, 12, 1, 2, 3, 4, 5, 6, 7, 8, 9, 10, 11, 12], by decide⟩

/-- The envelope that `EncodeToRawAtTime` builds with the toy AEAD for the
payload "Hello world!", the test nonce and the time of `TestVector1`, with
its version byte changed from 0xBA to 0xBB. -/
def tamperedEnvelope : List Byte :=
  [0xBB, 7, 87, 251, 0, 1, 2, 3, 4, 5, 6, 7, 8, 9, 10, 11, 12, 1, 2, 3, 4, 5, 6, 7, 8, 9, 10,
    11, 12, 72, 101, 108, 108, 111, 32, 119, 111, 114, 108, 100, 33, 175, 175, 175, 175, 175,
    175, 175, 175, 175, 175, 175, 175, 175, 175, 175, 175]

/-- The token of `TestVector1`. -/
def testToken : List Byte :=
  ascii "875GH233T7IYrxtgXxlQBYiFobZMQdHAT51vChKsAIYCFxZtL1evV54vYqLyZtQ0ekPHt8kJHQp0a"

end branca

/-! ### The codec loops with checked arithmetic -/

namespace basex

/-- The value `x` when it is below `limit`, nothing when it is not: integer
arithmetic that refuses a result of `limit` or more. -/
def fits (limit x : Nat) : Option Nat := if x < limit then some x else none

/-- `Encode.inner` with every value assigned to `carry` checked against `limit`. -/
def Encode.innerChecked (limit base : Nat) : List Nat → Nat → Option (List Nat × Nat)
  | [], carry => some ([], carry)
  | d :: digits, carry =>
    match fits limit (carry + (d <<< 8)) with
    | none => none
    | some c1 =>
      match fits limit (c1 / base) with
      | none => none
      | some c2 =>
        match Encode.innerChecked limit base digits c2 with
        | none => none
        | some r => some (c1 % base :: r.1, r.2)

/-- `Encode.drain` with every value assigned to `carry` checked against `limit`. -/
def Encode.drainChecked (limit base : Nat) : Nat → List Nat → Nat → Option (Outcome (List Nat))
  | 0, digits, carry => some (if carry > 0 then .spin else .ret digits)
  | fuel + 1, digits, carry =>
    if carry > 0 then
      match fits limit (carry / base) with
      | none => none
      | some c => Encode.drainChecked limit base fuel (digits ++ [carry % base]) c
    else some (.ret digits)

/-- `Encode.scan` with every value assigned to `carry` checked against `limit`. -/
def Encode.scanChecked (limit base fuel : Nat) :
    List Byte → List Nat → Option (Outcome (List Nat))
  | [], digits => some (.ret digits)
  | b :: source, digits =>
    match fits limit b.val with
    | none => none
    | some c0 =>
      match Encode.innerChecked limit base digits c0 with
      | none => none
      | some r =>
        match Encode.drainChecked limit base fuel r.1 r.2 with
        | none => none
        | some (.ret digits) => Encode.scanChecked limit base fuel source digits
        | some .panic => some .panic
        | some .spin => some .spin

/-- `Decode.inner` with every value assigned to `value` checked against `limit`. -/
def Decode.innerChecked (limit base : Nat) : List Byte → Nat → Option (List Byte × Nat)
  | [], value => some ([], value)
  | b :: bytes, value =>
    match fits limit (value + b.val * base) with
    | none => none
    | some v1 =>
      match fits limit (v1 >>> 8) with
      | none => none
      | some v2 =>
        match Decode.innerChecked limit base bytes v2 with
        | none => none
        | some r => some (byte (v1 &&& 0xff) :: r.1, r.2)

/-- `Decode.drain` with every value assigned to `value` checked against `limit`. -/
def Decode.drainChecked (limit : Nat) : Nat → List Byte → Nat → Option (Outcome (List Byte))
  | 0, bytes, value => some (if value > 0 then .spin else .ret bytes)
  | fuel + 1, bytes, value =>
    if value > 0 then
      match fits limit (value >>> 8) with
      | none => none
      | some v => Decode.drainChecked limit fuel (bytes ++ [byte (value &&& 0xff)]) v
    else some (.ret bytes)

/-- `Decode.scan` with every value assigned to `value` checked against `limit`. -/
def Decode.scanChecked (limit : Nat) (e : Encoding) (fuel : Nat) :
    List Byte → List Byte → Option (Outcome (Except String (List Byte)))
  | [], bytes => some (.ret (.ok bytes))
  | c :: source, bytes =>
    if c.val ≥ e.alphabetMap.length then some (.ret (.error "unexpected character found"))
    else
      match index e.alphabetMap c.val with
      | .ret m =>
        match fits limit m.val with
        | none => none
        | some v0 =>
          if v0 = 0 then some (.ret (.error "unexpected character found"))
          else
            match fits limit (v0 - 1) with
            | none => none
            | some v1 =>
              match Decode.innerChecked limit e.base bytes v1 with
              | none => none
              | some r =>
                match Decode.drainChecked limit fuel r.1 r.2 with
                | none => none
                | some (.ret bytes) => Decode.scanChecked limit e fuel source bytes
                | some .panic => some .panic
                | some .spin => some .spin
      | .panic => some .panic
      | .spin => some .spin

end basex

/-! ### XChaCha20-Poly1305

The AEAD that `New` stores comes from the external package
`golang.org/x/crypto/chacha20poly1305`.  It is written here from RFC 8439
(ChaCha20, Poly1305 and their AEAD construction) and from the XChaCha20
construction (HChaCha20 on the first 16 nonce bytes), to run the test vector
of `branca_test.go`.
-/

namespace chacha20poly1305

/-- Rotation of a 32-bit word to the left by `n` bits. -/
def rotl (x n : Nat) : Nat := ((x <<< n) ||| (x >>> (32 - n))) % 4294967296

/-- The ChaCha quarter round on the words at positions `a`, `b`, `c`, `d` of the state. -/
def quarterRound (s : List Nat) (a b c d : Nat) : List Nat :=
  let xa := (s.getD a 0 + s.getD b 0) % 4294967296
  let xd := rotl (s.getD d 0 ^^^ xa) 16
  let xc := (s.getD c 0 + xd) % 4294967296
  let xb := rotl (s.getD b 0 ^^^ xc) 12
  let ya := (xa + xb) % 4294967296
  let yd := rotl (xd ^^^ ya) 8
  let yc := (xc + yd) % 4294967296
  let yb := rotl (xb ^^^ yc) 7
  (((s.set a ya).set b yb).set c yc).set d yd

/-- One column round followed by one diagonal round. -/
def doubleRound (s : List Nat) : List Nat :=
  let s := quarterRound s 0 4 8 12
  let s := quarterRound s 1 5 9 13
  let s := quarterRound s 2 6 10 14
  let s := quarterRound s 3 7 11 15
  let s := quarterRound s 0 5 10 15
  let s := quarterRound s 1 6 11 12
  let s := quarterRound s 2 7 8 13
  quarterRound s 3 4 9 14

/-- The given number of double rounds. -/
def rounds : Nat → List Nat → List Nat
  | 0, s => s
  | n + 1, s => rounds n (doubleRound s)

/-- Little-endian 32-bit words of a byte sequence whose length is a multiple of four. -/
def words : List Byte → List Nat
  | b0 :: b1 :: b2 :: b3 :: rest =>
    (b0.val + b1.val * 2 ^ 8 + b2.val * 2 ^ 16 + b3.val * 2 ^ 24) :: words rest
  | _ => []

/-- Little-endian bytes of 32-bit words. -/
def unwords : List Nat → List Byte
  | [] => []
  | w :: rest => byte w :: byte (w >>> 8) :: byte (w >>> 16) :: byte (w >>> 24) :: unwords rest

/-- The four constant words "expand 32-byte k". -/
def sigma : List Nat := [0x61707865, 0x3320646e, 0x79622d32, 0x6b206574]

/-- The ChaCha20 block function: 64 bytes of key stream for a 32-byte key, a
block counter and a 12-byte nonce. -/
def block (key : List Byte) (counter : Nat) (nonce : List Byte) : List Byte :=
  let init := sigma ++ words key ++ [counter % 4294967296] ++ words nonce
  unwords (List.zipWith (fun x y => (x + y) % 4294967296) (rounds 10 init) init)

/-- HChaCha20: the 32-byte subkey for a 32-byte key and a 16-byte nonce. -/
def HChaCha20 (key nonce : List Byte) : List Byte :=
  let s := rounds 10 (sigma ++ words key ++ words nonce)
  unwords (s.take 4 ++ s.drop 12)

/-- XOR of the data with the ChaCha20 key stream, from the given block counter;
`n` bounds the number of blocks. -/
def xorKeyStream (key nonce : List Byte) : Nat → Nat → List Byte → List Byte
  | 0, _, _ => []
  | n + 1, counter, data =>
    if data = [] then []
    else
      List.zipWith (fun x k => byte (x.val ^^^ k.val)) (data.take 64) (block key counter nonce)
        ++ xorKeyStream key nonce n (counter + 1) (data.drop 64)

/-- Little-endian number of a byte sequence. -/
def leNum : List Byte → Nat
  | [] => 0
  | b :: rest => b.val + 256 * leNum rest

/-- The `n` little-endian bytes of a number. -/
def leBytes : Nat → Nat → List Byte
  | 0, _ => []
  | n + 1, x => byte x :: leBytes n (x >>> 8)

/-- The Poly1305 accumulator over the 16-byte blocks of the message; `n`
bounds the number of blocks. -/
def polyBlocks (r : Nat) : Nat → Nat → List Byte → Nat
  | 0, acc, _ => acc
  | n + 1, acc, msg =>
    if msg = [] then acc
    else
      polyBlocks r n
        (((acc + leNum (msg.take 16) + 2 ^ (8 * (msg.take 16).length)) * r)
          % (2 ^ 130 - 5))
        (msg.drop 16)

/-- Poly1305: the 16-byte tag of a message under a 32-byte one-time key. -/
def poly1305 (key msg : List Byte) : List Byte :=
  let r := leNum (key.take 16) &&& 0x0ffffffc0ffffffc0ffffffc0fffffff
  let s := leNum ((key.drop 16).take 16)
  leBytes 16 ((polyBlocks r (msg.length + 1) 0 msg + s) % 2 ^ 128)

/-- Zero bytes that pad a length to a multiple of 16. -/
def pad16 (n : Nat) : List Byte := List.replicate ((16 - n % 16) % 16) 0

/-- The tag of ChaCha20-Poly1305 for a ciphertext and additional data. -/
def tag (key nonce ciphertext ad : List Byte) : List Byte :=
  poly1305 ((block key 0 nonce).take 32)
    (ad ++ pad16 ad.length ++ ciphertext ++ pad16 ciphertext.length
      ++ leBytes 8 ad.length ++ leBytes 8 ciphertext.length)

/-- The 12-byte ChaCha20 nonce that XChaCha20 derives from a 24-byte nonce:
four zero bytes, then the last eight bytes of the nonce. -/
def subNonce (nonce : List Byte) : List Byte := [0, 0, 0, 0] ++ (nonce.drop 16).take 8

/-- What XChaCha20-Poly1305 appends to the destination when it seals: the
plaintext XORed with the key stream from block 1, then the 16-byte tag. -/
def sealX (key nonce plaintext ad : List Byte) : List Byte :=
  xorKeyStream (HChaCha20 key (nonce.take 16)) (subNonce nonce) (plaintext.length + 1) 1 plaintext
    ++ tag (HChaCha20 key (nonce.take 16)) (subNonce nonce)
      (xorKeyStream (HChaCha20 key (nonce.take 16)) (subNonce nonce) (plaintext.length + 1) 1
        plaintext) ad

/-- The Go type `xchacha20poly1305` with its methods `Seal` and `Open`, for a
32-byte key.  Both panic on a nonce that has not 24 bytes; `Open` with a
nil `dst` and an empty plaintext returns a nil slice. -/
def xchacha20poly1305 (key : List Byte) : AEAD where
  Seal := fun dst nonce plaintext ad =>
    if nonce.length ≠ 24 then .panic
    else .ret (dst ++ sealX key nonce plaintext ad)
  Open := fun dst nonce ciphertext ad =>
    if nonce.length ≠ 24 then .panic
    else if ciphertext.length < 16 then
      .ret (none, some "chacha20poly1305: message authentication failed")
    else
      let k := HChaCha20 key (nonce.take 16)
      let ct := ciphertext.take (ciphertext.length - 16)
      if tag k (subNonce nonce) ct ad ≠ ciphertext.drop (ciphertext.length - 16) then
        .ret (none, some "chacha20poly1305: message authentication failed")
      else
        match dst with
        | none =>
          if ct = [] then .ret (none, none)
          else .ret (some (xorKeyStream k (subNonce nonce) (ct.length + 1) 1 ct), none)
        | some d => .ret (some (d ++ xorKeyStream k (subNonce nonce) (ct.length + 1) 1 ct), none)

/-- Go `chacha20poly1305.NewX(key)`, returning the pair `(cipher.AEAD, error)`. -/
def NewX (key : List Byte) : Option AEAD × Option String :=
  if key.length ≠ 32 then (none, some "chacha20poly1305: bad key length")
  else (some (xchacha20poly1305 key), none)

end chacha20poly1305

/-! ## Lemmas and theorems -/

namespace chacha20poly1305

theorem words_length : ∀ (n : Nat) (l : List Byte), l.length = 4 * n → (words l).length = n := by
  intro n
  induction n with
  | zero =>
    intro l h
    have : l = [] := List.length_eq_zero.mp (by omega)
    subst this
    rfl
  | succ n ih =>
    intro l h
    match l, h with
    | b0 :: b1 :: b2 :: b3 :: rest, h =>
      simp only [words, List.length_cons]
      rw [ih rest (by simp only [List.length_cons] at h; omega)]

theorem unwords_length (ws : List Nat) : (unwords ws).length = 4 * ws.length := by
  induction ws with
  | nil => rfl
  | cons w ws ih => simp only [unwords, List.length_cons, ih]; omega

theorem quarterRound_length (s : List Nat) (a b c d : Nat) :
    (quarterRound s a b c d).length = s.length := by
  simp [quarterRound]

theorem doubleRound_length (s : List Nat) : (doubleRound s).length = s.length := by
  simp [doubleRound, quarterRound_length]

theorem rounds_length (n : Nat) : ∀ s : List Nat, (rounds n s).length = s.length := by
  induction n with
  | zero => intro s; rfl
  | succ n ih => intro s; rw [rounds, ih, doubleRound_length]

theorem block_length {key nonce : List Byte} (hk : key.length = 32) (hn : nonce.length = 12)
    (counter : Nat) : (block key counter nonce).length = 64 := by
  simp only [block, unwords_length, List.length_zipWith, rounds_length, List.length_append,
    words_length 8 key (by omega), words_length 3 nonce (by omega), sigma, List.length_cons,
    List.length_nil]
  omega

theorem HChaCha20_length {key nonce : List Byte} (hk : key.length = 32) (hn : nonce.length = 16) :
    (HChaCha20 key nonce).length = 32 := by
  simp only [HChaCha20, unwords_length, List.length_append, List.length_take, List.length_drop,
    rounds_length, words_length 8 key (by omega), words_length 4 nonce (by omega), sigma,
    List.length_cons, List.length_nil]
  omega

theorem subNonce_length {nonce : List Byte} (hn : nonce.length = 24) :
    (subNonce nonce).length = 12 := by
  simp only [subNonce, List.length_append, List.length_cons, List.length_nil, List.length_take,
    List.length_drop, hn]
  omega

theorem xorKeyStream_length {key nonce : List Byte} (hk : key.length = 32)
    (hn : nonce.length = 12) (n : Nat) :
    ∀ (counter : Nat) (data : List Byte), data.length ≤ 64 * n →
      (xorKeyStream key nonce n counter data).length = data.length := by
  induction n with
  | zero =>
    intro counter data h
    have : data = [] := List.length_eq_zero.mp (by omega)
    subst this
    rfl
  | succ n ih =>
    intro counter data h
    rw [xorKeyStream]
    split
    · rename_i h0; rw [h0]
    · rw [List.length_append, List.length_zipWith, block_length hk hn, List.length_take,
        ih _ _ (by rw [List.length_drop]; omega), List.length_drop]
      omega

theorem leBytes_length (n : Nat) : ∀ x : Nat, (leBytes n x).length = n := by
  induction n with
  | zero => intro x; rfl
  | succ n ih => intro x; simp only [leBytes, List.length_cons, ih]

theorem tag_length (key nonce ciphertext ad : List Byte) :
    (tag key nonce ciphertext ad).length = 16 := by
  simp only [tag, poly1305, leBytes_length]

theorem sealX_length {key nonce : List Byte} (hk : key.length = 32) (hn : nonce.length = 24)
    (plaintext ad : List Byte) : (sealX key nonce plaintext ad).length = plaintext.length + 16 := by
  have h16 : (nonce.take 16).length = 16 := by rw [List.length_take]; omega
  rw [sealX, List.length_append, tag_length,
    xorKeyStream_length (HChaCha20_length hk h16) (subNonce_length hn) _ _ _ (by omega)]

end chacha20poly1305

namespace basex

theorem byte_succ (i : Nat) : byte i + 1 = byte (i + 1) := by
  apply Fin.ext
  simp [byte, Fin.add_def]

theorem byte_val_of_lt {n : Nat} (h : n < 256) : (byte n).val = n := by
  simp [byte, Nat.mod_eq_of_lt h]

theorem NewEncoding.loop_ok (rest : List Byte) :
    ∀ (i : Nat) (e : Encoding), e.alphabetMap.length = 128 → i + rest.length ≤ 128 →
      (∀ c ∈ rest, c.val < 128 ∧ e.alphabetMap[c.val]? = some 0) → rest.Nodup →
      ∃ M, NewEncoding.loop rest i e = .ret (some { e with alphabetMap := M }, none) ∧
        M.length = 128 ∧
        (∀ c : Byte, c ∉ rest → M[c.val]? = e.alphabetMap[c.val]?) ∧
        (∀ k (h : k < rest.length), M[(rest[k]).val]? = some (byte (i + k + 1))) := by
  induction rest with
  | nil =>
    intro i e hlen _ _ _
    exact ⟨e.alphabetMap, by simp [NewEncoding.loop], hlen, fun _ _ => rfl, fun k h => by simp at h⟩
  | cons b rest ih =>
    intro i e hlen hi hc hnd
    have hb := hc b (List.mem_cons_self _ _)
    have hnd' := List.nodup_cons.mp hnd
    simp only [List.length_cons] at hi
    have hstep : ∀ c ∈ rest, c.val < 128 ∧
        (e.alphabetMap.set b.val (byte i + 1))[c.val]? = some 0 := by
      intro c hcm
      have h1 := hc c (List.mem_cons_of_mem _ hcm)
      refine ⟨h1.1, ?_⟩
      have hne : b.val ≠ c.val := by
        intro h
        exact hnd'.1 (by rw [Fin.ext h]; exact hcm)
      rw [List.getElem?_set_ne hne]
      exact h1.2
    obtain ⟨M, hM, hMlen, hMout, hMin⟩ := ih (i + 1)
      { e with alphabetMap := e.alphabetMap.set b.val (byte i + 1) }
      (by simp [hlen]) (by omega) hstep hnd'.2
    refine ⟨M, ?_, hMlen, ?_, ?_⟩
    · simp only [NewEncoding.loop]
      rw [if_neg (by omega), hb.2]
      simpa using hM
    · intro c hcn
      have hcb : c ≠ b := fun h => hcn (h ▸ List.mem_cons_self _ _)
      have hcr : c ∉ rest := fun h => hcn (List.mem_cons_of_mem _ h)
      rw [hMout c hcr]
      simp only
      rw [List.getElem?_set_ne]
      exact fun h => hcb (Fin.ext h.symm)
    · intro k hk
      cases k with
      | zero =>
        simp only [List.getElem_cons_zero]
        rw [hMout b hnd'.1]
        simp only
        rw [List.getElem?_set_self (by rw [hlen]; exact hb.1), byte_succ]
      | succ k =>
        simp only [List.getElem_cons_succ]
        simp only [List.length_cons] at hk
        rw [hMin k (by omega)]
        congr 2
        omega

theorem NewEncoding.loop_err (rest : List Byte) :
    ∀ (i : Nat) (e : Encoding), e.alphabetMap.length = 128 → i + rest.length ≤ 128 →
      ¬ ((∀ c ∈ rest, c.val < 128 ∧ e.alphabetMap[c.val]? = some 0) ∧ rest.Nodup) →
      ∃ msg, NewEncoding.loop rest i e = .ret (none, some msg) := by
  induction rest with
  | nil =>
    intro i e _ _ h
    exact absurd ⟨by simp, List.nodup_nil⟩ h
  | cons b rest ih =>
    intro i e hlen hi h
    simp only [List.length_cons] at hi
    simp only [NewEncoding.loop]
    by_cases hb : b.val ≥ 128
    · exact ⟨_, by rw [if_pos hb]⟩
    · rw [if_neg hb]
      have hlt : b.val < e.alphabetMap.length := by omega
      rw [List.getElem?_eq_getElem hlt]
      simp only
      by_cases hm : (e.alphabetMap[b.val]).val > 0
      · exact ⟨_, by rw [if_pos hm]⟩
      · rw [if_neg hm]
        have hm0 : e.alphabetMap[b.val] = 0 := Fin.ext (by simpa using hm)
        apply ih (i + 1) _ (by simp [hlen]) (by omega)
        intro hgood
        apply h
        have hbi : (byte i + 1 : Byte) ≠ 0 := by
          rw [byte_succ]
          intro h0
          have := congrArg Fin.val h0
          rw [byte_val_of_lt (by omega)] at this
          simp at this
        have hnotin : b ∉ rest := by
          intro hmem
          have := (hgood.1 b hmem).2
          simp only at this
          rw [List.getElem?_set_self hlt] at this
          exact hbi (Option.some.inj this)
        refine ⟨?_, List.nodup_cons.mpr ⟨hnotin, hgood.2⟩⟩
        intro c hcm
        rcases List.mem_cons.mp hcm with rfl | hcr
        · exact ⟨by omega, by rw [List.getElem?_eq_getElem hlt, hm0]⟩
        · have h1 := hgood.1 c hcr
          refine ⟨h1.1, ?_⟩
          have hne : b.val ≠ c.val := fun hh => hnotin (by rw [Fin.ext hh]; exact hcr)
          have h2 := h1.2
          simp only at h2
          rwa [List.getElem?_set_ne hne] at h2

theorem NewEncoding_built {alphabet : List Byte} {e : Encoding}
    (h : NewEncoding alphabet = .ret (some e, none)) : Built alphabet e := by
  unfold NewEncoding at h
  by_cases h0 : alphabet.length = 0
  · rw [if_pos h0] at h; cases h
  rw [if_neg h0] at h
  by_cases h1 : alphabet.length > 128
  · rw [if_pos h1] at h; cases h
  rw [if_neg h1] at h
  have hpos : 0 < alphabet.length := Nat.pos_of_ne_zero h0
  rw [List.getElem?_eq_getElem hpos] at h
  simp only at h
  by_cases hgood : (∀ c ∈ alphabet, c.val < 128 ∧
      (List.replicate 128 (0 : Byte))[c.val]? = some 0) ∧ alphabet.Nodup
  · obtain ⟨M, hM, hMlen, hMout, hMin⟩ := NewEncoding.loop_ok alphabet 0
      { base := alphabet.length, alphabet := alphabet,
        alphabetMap := List.replicate 128 0, zero := alphabet[0] }
      (by simp) (by simp; omega) hgood.1 hgood.2
    rw [hM] at h
    have he := Option.some.inj (congrArg Prod.fst (Outcome.ret.inj h))
    subst he
    refine ⟨rfl, rfl, by simp [List.getElem?_eq_getElem hpos], hpos, by omega,
      fun c hc => (hgood.1 c hc).1, hgood.2, hMlen, ?_, ?_⟩
    · intro k hk
      have := hMin k hk
      simpa using this
    · intro c hc hcn
      have := hMout c hcn
      simp only at this ⊢
      rw [this, List.getElem?_replicate, if_pos hc]
  · obtain ⟨msg, hmsg⟩ := NewEncoding.loop_err alphabet 0
      { base := alphabet.length, alphabet := alphabet,
        alphabetMap := List.replicate 128 0, zero := alphabet[0] }
      (by simp) (by simp; omega) hgood
    rw [hmsg] at h
    cases h


theorem firstDigits_length (radix k n : Nat) : (firstDigits radix k n).length = k := by
  induction k generalizing n with
  | zero => rfl
  | succ k ih => simp [firstDigits, ih]

theorem firstDigits_append_digits {b : Nat} (hb : 1 < b) :
    ∀ (k n : Nat), k ≤ (Nat.digits b n).length →
      firstDigits b k n ++ Nat.digits b (n / b ^ k) = Nat.digits b n := by
  intro k
  induction k with
  | zero => intro n _; simp [firstDigits]
  | succ k ih =>
    intro n hk
    have hn : 0 < n := by
      rcases Nat.eq_zero_or_pos n with h | h
      · subst h; simp at hk
      · exact h
    rw [Nat.digits_def' hb hn] at hk ⊢
    simp only [List.length_cons, Nat.add_le_add_iff_right] at hk
    simp only [firstDigits, List.cons_append, List.cons.injEq, true_and]
    rw [pow_succ', ← Nat.div_div_eq_div_mul]
    exact ih (n / b) hk

theorem norm_length_le {b : Nat} (v w : Nat) (hw : w ≠ 0) (h : v ≤ w) :
    (norm b v).length ≤ (Nat.digits b w).length := by
  unfold norm
  split
  · have : Nat.digits b w ≠ [] := Nat.digits_ne_nil_iff_ne_zero.mpr hw
    exact List.length_pos.mpr this
  · exact Nat.le_digits_len_le b v w h

theorem ofDigits_norm (b v : Nat) : Nat.ofDigits b (norm b v) = v := by
  unfold norm
  split
  · subst_vars; simp [Nat.ofDigits]
  · exact Nat.ofDigits_digits b v

theorem lt_pow_norm_length {b : Nat} (hb : 1 < b) (v : Nat) : v < b ^ (norm b v).length := by
  unfold norm
  split
  · subst_vars; simp; omega
  · exact Nat.lt_base_pow_length_digits hb

theorem firstDigits_norm {b : Nat} (hb : 1 < b) (v N : Nat) (h : v ≤ N) :
    firstDigits b (norm b v).length N ++ Nat.digits b (N / b ^ (norm b v).length) = norm b N := by
  by_cases hN : N = 0
  · have hv : v = 0 := by omega
    subst hN hv
    simp [norm, firstDigits]
  · rw [firstDigits_append_digits hb _ _ (norm_length_le v N hN h)]
    simp [norm, hN]

theorem Encode_inner_eq {b : Nat} (hb : 0 < b) (ds : List Nat) :
    ∀ c : Nat, Encode.inner b ds c =
      (firstDigits b ds.length (c + 256 * Nat.ofDigits b ds),
        (c + 256 * Nat.ofDigits b ds) / b ^ ds.length) := by
  induction ds with
  | nil => intro c; simp [Encode.inner, firstDigits]
  | cons d ds ih =>
    intro c
    have e1 : c + 256 * Nat.ofDigits b (d :: ds) = (c + d * 256) + b * (256 * Nat.ofDigits b ds) := by
      rw [Nat.ofDigits_cons]; ring
    have e2 : d <<< 8 = d * 256 := by rw [Nat.shiftLeft_eq]
    rw [Encode.inner, e2, ih, e1]
    simp only [List.length_cons, firstDigits]
    rw [Nat.add_mul_mod_self_left, Nat.add_mul_div_left _ _ hb, pow_succ',
      ← Nat.div_div_eq_div_mul, Nat.add_mul_div_left _ _ hb]

theorem Encode_drain_eq {b : Nat} (hb : 1 < b) :
    ∀ (fuel : Nat) (ds : List Nat) (c : Nat), c < b ^ fuel →
      Encode.drain b fuel ds c = .ret (ds ++ Nat.digits b c) := by
  intro fuel
  induction fuel with
  | zero =>
    intro ds c h
    have : c = 0 := by simpa using h
    subst this
    simp [Encode.drain]
  | succ fuel ih =>
    intro ds c h
    by_cases hc : c > 0
    · rw [Nat.digits_def' hb hc]
      simp only [Encode.drain, hc, if_true]
      rw [ih _ _ (Nat.div_lt_of_lt_mul (by rwa [pow_succ'] at h))]
      simp
    · have : c = 0 := by omega
      subst this
      simp [Encode.drain]

theorem Encode_step_eq {b fuel : Nat} (hb : 1 < b) (hf : 8 ≤ fuel) (v x : Nat) (hx : x < 256) :
    Encode.drain b fuel (Encode.inner b (norm b v) x).1 (Encode.inner b (norm b v) x).2
      = .ret (norm b (256 * v + x)) := by
  rw [Encode_inner_eq (by omega), ofDigits_norm]
  simp only
  have hv := lt_pow_norm_length hb v
  have hcarry : (x + 256 * v) / b ^ (norm b v).length < 256 := by
    rw [Nat.div_lt_iff_lt_mul (by positivity)]
    nlinarith
  have hlen : (x + 256 * v) / b ^ (norm b v).length < b ^ fuel := by
    calc (x + 256 * v) / b ^ (norm b v).length < 256 := hcarry
      _ = 2 ^ 8 := by norm_num
      _ ≤ b ^ 8 := Nat.pow_le_pow_left hb 8
      _ ≤ b ^ fuel := Nat.pow_le_pow_right (by omega) hf
  rw [Encode_drain_eq hb _ _ _ hlen, firstDigits_norm hb v _ (by omega), Nat.add_comm]

theorem foldl_eq_ofDigits (f : Nat) (xs : List Nat) :
    ∀ v : Nat, xs.foldl (fun acc x => f * acc + x) v = v * f ^ xs.length + Nat.ofDigits f xs.reverse := by
  induction xs with
  | nil => intro v; simp [Nat.ofDigits]
  | cons x xs ih =>
    intro v
    simp only [List.foldl_cons, List.reverse_cons, List.length_cons]
    rw [ih, Nat.ofDigits_append, Nat.ofDigits_singleton, List.length_reverse]
    ring

theorem Encode_scan_eq {b fuel : Nat} (hb : 1 < b) (hf : 8 ≤ fuel) (source : List Byte) :
    ∀ v : Nat, Encode.scan b fuel source (norm b v)
      = .ret (norm b ((source.map Fin.val).foldl (fun acc x => 256 * acc + x) v)) := by
  induction source with
  | nil => intro v; simp [Encode.scan]
  | cons x source ih =>
    intro v
    simp only [Encode.scan, List.map_cons, List.foldl_cons]
    rw [Encode_step_eq hb hf v x.val x.isLt]
    exact ih _


theorem map_val_map_byte (l : List Nat) (h : ∀ x ∈ l, x < 256) :
    (l.map byte).map Fin.val = l := by
  induction l with
  | nil => rfl
  | cons x l ih =>
    simp only [List.map_cons, List.cons.injEq]
    exact ⟨byte_val_of_lt (h x (List.mem_cons_self _ _)),
      ih (fun y hy => h y (List.mem_cons_of_mem _ hy))⟩

theorem map_byte_map_val (l : List Byte) : (l.map Fin.val).map byte = l := by
  induction l with
  | nil => rfl
  | cons x l ih =>
    simp only [List.map_cons, List.cons.injEq]
    exact ⟨Fin.ext (byte_val_of_lt x.isLt), ih⟩

theorem norm_lt {b : Nat} (hb : 1 < b) (v : Nat) : ∀ x ∈ norm b v, x < b := by
  intro x hx
  unfold norm at hx
  split at hx
  · simp at hx; omega
  · exact Nat.digits_lt_base hb hx

theorem norm_ne_nil (b v : Nat) : norm b v ≠ [] := by
  unfold norm
  split
  · simp
  · exact Nat.digits_ne_nil_iff_ne_zero.mpr ‹_›

theorem firstDigits_lt {b : Nat} (hb : 0 < b) (k n : Nat) : ∀ x ∈ firstDigits b k n, x < b := by
  induction k generalizing n with
  | zero => intro x hx; simp [firstDigits] at hx
  | succ k ih =>
    intro x hx
    simp only [firstDigits, List.mem_cons] at hx
    rcases hx with rfl | hx
    · exact Nat.mod_lt _ hb
    · exact ih _ x hx

theorem Decode_inner_eq (base : Nat) (bs : List Byte) :
    ∀ value : Nat, Decode.inner base bs value =
      ((firstDigits 256 bs.length (value + base * Nat.ofDigits 256 (bs.map Fin.val))).map byte,
        (value + base * Nat.ofDigits 256 (bs.map Fin.val)) / 256 ^ bs.length) := by
  induction bs with
  | nil => intro value; simp [Decode.inner, firstDigits]
  | cons x bs ih =>
    intro value
    have e1 : value + base * Nat.ofDigits 256 ((x :: bs).map Fin.val)
        = (value + x.val * base) + 256 * (base * Nat.ofDigits 256 (bs.map Fin.val)) := by
      rw [List.map_cons, Nat.ofDigits_cons]; ring
    have e2 : ∀ n : Nat, n &&& 0xff = n % 256 := fun n => Nat.and_pow_two_sub_one_eq_mod n 8
    have e3 : ∀ n : Nat, n >>> 8 = n / 256 := fun n => Nat.shiftRight_eq_div_pow n 8
    rw [Decode.inner, e2, e3, ih, e1]
    simp only [List.length_cons, firstDigits, List.map_cons]
    rw [Nat.add_mul_mod_self_left, Nat.add_mul_div_left _ _ (by norm_num), pow_succ',
      ← Nat.div_div_eq_div_mul, Nat.add_mul_div_left _ _ (by norm_num)]

theorem Decode_drain_eq :
    ∀ (fuel : Nat) (bs : List Byte) (v : Nat), v < 256 ^ fuel →
      Decode.drain fuel bs v = .ret (bs ++ (Nat.digits 256 v).map byte) := by
  intro fuel
  induction fuel with
  | zero =>
    intro bs v h
    have : v = 0 := by simpa using h
    subst this
    simp [Decode.drain]
  | succ fuel ih =>
    intro bs v h
    have e2 : ∀ n : Nat, n &&& 0xff = n % 256 := fun n => Nat.and_pow_two_sub_one_eq_mod n 8
    have e3 : ∀ n : Nat, n >>> 8 = n / 256 := fun n => Nat.shiftRight_eq_div_pow n 8
    by_cases hv : v > 0
    · rw [Nat.digits_def' (by norm_num) hv]
      simp only [Decode.drain, hv, if_true]
      rw [e2, e3, ih _ _ (Nat.div_lt_of_lt_mul (by rwa [pow_succ'] at h))]
      simp
    · have : v = 0 := by omega
      subst this
      simp [Decode.drain]

theorem Decode_step_eq {base fuel : Nat} (hbase : base ≤ 256) (hf : 1 ≤ fuel) (v d : Nat)
    (hd : d < base) :
    Decode.drain fuel (Decode.inner base ((norm 256 v).map byte) d).1
        (Decode.inner base ((norm 256 v).map byte) d).2
      = .ret ((norm 256 (base * v + d)).map byte) := by
  rw [Decode_inner_eq, map_val_map_byte _ (norm_lt (by norm_num) v), ofDigits_norm]
  simp only [List.length_map]
  have hv := lt_pow_norm_length (b := 256) (by norm_num) v
  have hcarry : (d + base * v) / 256 ^ (norm 256 v).length < base := by
    rw [Nat.div_lt_iff_lt_mul (by positivity)]
    have := Nat.mul_le_mul_left base (Nat.succ_le_of_lt hv)
    nlinarith
  have hlen : (d + base * v) / 256 ^ (norm 256 v).length < 256 ^ fuel := by
    calc (d + base * v) / 256 ^ (norm 256 v).length < base := hcarry
      _ ≤ 256 ^ 1 := by simpa using hbase
      _ ≤ 256 ^ fuel := Nat.pow_le_pow_right (by norm_num) hf
  rw [Decode_drain_eq _ _ _ hlen, ← List.map_append,
    firstDigits_norm (by norm_num) v _ (by nlinarith), Nat.add_comm]

theorem Built.lookup {alphabet : List Byte} {e : Encoding} (hB : Built alphabet e) {c : Byte}
    (hc : c ∈ alphabet) :
    c.val < e.alphabetMap.length ∧
      index e.alphabetMap c.val = .ret (byte (List.indexOf c alphabet + 1)) ∧
      (byte (List.indexOf c alphabet + 1)).val = List.indexOf c alphabet + 1 ∧
      List.indexOf c alphabet < e.base := by
  have hk : List.indexOf c alphabet < alphabet.length := List.indexOf_lt_length.mpr hc
  have hget : alphabet[List.indexOf c alphabet] = c := List.getElem_indexOf hk
  have h1 := hB.map_in _ hk
  rw [hget] at h1
  refine ⟨by rw [hB.map_len]; exact hB.ascii c hc, by simp [index, h1], ?_, by rw [hB.base_eq]; exact hk⟩
  exact byte_val_of_lt (by have := hB.len_le; omega)

theorem Built.lookup_out {alphabet : List Byte} {e : Encoding} (hB : Built alphabet e) {c : Byte}
    (hc : c ∉ alphabet) (hlt : c.val < e.alphabetMap.length) :
    index e.alphabetMap c.val = .ret 0 := by
  have h1 := hB.map_out c (by rw [← hB.map_len]; exact hlt) hc
  simp [index, h1]

theorem Decode_scan_ok {alphabet : List Byte} {e : Encoding} (hB : Built alphabet e)
    {fuel : Nat} (hf : 1 ≤ fuel) (source : List Byte) :
    ∀ v : Nat, (∀ c ∈ source, c ∈ alphabet) →
      Decode.scan e fuel source ((norm 256 v).map byte) = .ret (.ok ((norm 256
        ((source.map (fun c => List.indexOf c alphabet)).foldl
          (fun acc d => e.base * acc + d) v)).map byte)) := by
  induction source with
  | nil => intro v _; simp [Decode.scan]
  | cons c source ih =>
    intro v hs
    obtain ⟨h1, h2, h3, h4⟩ := hB.lookup (hs c (List.mem_cons_self _ _))
    have hbase : e.base ≤ 256 := by rw [hB.base_eq]; have := hB.len_le; omega
    simp only [Decode.scan, List.map_cons, List.foldl_cons]
    rw [if_neg (by omega), h2]
    simp only [h3, Nat.add_sub_cancel]
    rw [if_neg (by omega), Decode_step_eq hbase hf v _ h4]
    exact ih _ (fun x hx => hs x (List.mem_cons_of_mem _ hx))

theorem Decode_scan_err {alphabet : List Byte} {e : Encoding} (hB : Built alphabet e)
    {fuel : Nat} (hf : 1 ≤ fuel) (source : List Byte) :
    ∀ v : Nat, (∃ c ∈ source, c ∉ alphabet) →
      Decode.scan e fuel source ((norm 256 v).map byte)
        = .ret (.error "unexpected character found") := by
  induction source with
  | nil => intro v h; simp at h
  | cons c source ih =>
    intro v hs
    by_cases hc : c ∈ alphabet
    · obtain ⟨h1, h2, h3, h4⟩ := hB.lookup hc
      have hbase : e.base ≤ 256 := by rw [hB.base_eq]; have := hB.len_le; omega
      simp only [Decode.scan]
      rw [if_neg (by omega), h2]
      simp only [h3, Nat.add_sub_cancel]
      rw [if_neg (by omega), Decode_step_eq hbase hf v _ h4]
      apply ih
      obtain ⟨x, hx, hxn⟩ := hs
      rcases List.mem_cons.mp hx with rfl | hx
      · exact absurd hc hxn
      · exact ⟨x, hx, hxn⟩
    · simp only [Decode.scan]
      by_cases hlt : c.val ≥ e.alphabetMap.length
      · rw [if_pos hlt]
      · rw [if_neg hlt, hB.lookup_out hc (by omega)]
        simp


theorem leading_of_false {α : Type} (p : α → Bool) (x : α) (rest : List α) (h : p x = false) :
    leading p (x :: rest) = 0 := by
  cases rest with
  | nil => rfl
  | cons y rest => simp [leading, h]

theorem leading_map {α β : Type} (f : α → β) (p : β → Bool) (l : List α) :
    leading p (l.map f) = leading (fun a => p (f a)) l := by
  induction l with
  | nil => rfl
  | cons x l ih =>
    cases l with
    | nil => rfl
    | cons y l =>
      simp only [List.map_cons, leading] at ih ⊢
      rw [ih]

theorem leading_congr {α : Type} (p q : α → Bool) (l : List α) (h : ∀ x ∈ l, p x = q x) :
    leading p l = leading q l := by
  induction l with
  | nil => rfl
  | cons x l ih =>
    cases l with
    | nil => rfl
    | cons y l =>
      simp only [leading]
      rw [h x (List.mem_cons_self _ _), ih (fun z hz => h z (List.mem_cons_of_mem _ hz))]

theorem convert_nil (f t : Nat) : convert f t [] = [] := by simp [convert]

theorem convert_ne_nil (f t : Nat) {xs : List Nat} (h : xs ≠ []) : convert f t xs ≠ [] := by
  unfold convert
  rw [if_neg h]
  intro h0
  have := (List.append_eq_nil.mp h0).2
  exact norm_ne_nil _ _ (List.reverse_eq_nil_iff.mp this)

theorem convert_zero_cons (f t : Nat) (y : Nat) (rest : List Nat) :
    convert f t (0 :: y :: rest) = 0 :: convert f t (y :: rest) := by
  unfold convert
  rw [if_neg (by simp), if_neg (by simp)]
  have e : Nat.ofDigits f (0 :: y :: rest).reverse = Nat.ofDigits f (y :: rest).reverse := by
    rw [List.reverse_cons (a := 0), Nat.ofDigits_append, Nat.ofDigits_singleton]
    simp
  rw [e]
  simp [leading, List.replicate_succ]

theorem convert_lt (f : Nat) {t : Nat} (ht : 1 < t) (xs : List Nat) :
    ∀ y ∈ convert f t xs, y < t := by
  intro y hy
  unfold convert at hy
  split at hy
  · simp at hy
  · rcases List.mem_append.mp hy with h | h
    · rw [(List.mem_replicate.mp h).2]; omega
    · exact norm_lt ht _ y (List.mem_reverse.mp h)

/-- A little-endian digit list without a superfluous top digit is the digit
list of its value, and converting its reversal writes that value. -/
theorem convert_reverse_of_getLast {f : Nat} (hf : 1 < f) (t : Nat) (L : List Nat)
    (hne : L ≠ []) (hlast : L.getLast hne ≠ 0) (hlt : ∀ x ∈ L, x < f) :
    Nat.digits f (Nat.ofDigits f L) = L ∧ Nat.ofDigits f L ≠ 0 ∧
      convert f t L.reverse = (Nat.digits t (Nat.ofDigits f L)).reverse := by
  have hd : Nat.digits f (Nat.ofDigits f L) = L :=
    Nat.digits_ofDigits f hf L hlt (fun _ => hlast)
  have hv : Nat.ofDigits f L ≠ 0 := by
    intro h0
    rw [h0, Nat.digits_zero] at hd
    exact hne hd.symm
  refine ⟨hd, hv, ?_⟩
  unfold convert
  rw [if_neg (by simpa using hne), List.reverse_reverse]
  have hrev : L.reverse = L.getLast hne :: L.dropLast.reverse := by
    conv_lhs => rw [← List.dropLast_append_getLast hne]
    simp
  have hl : leading (fun x => x == 0) L.reverse = 0 := by
    rw [hrev]
    exact leading_of_false _ _ _ (by simpa using hlast)
  rw [hl]
  simp [norm, hv]

theorem convert_convert {f t : Nat} (hf : 1 < f) (ht : 1 < t) (xs : List Nat) :
    (∀ x ∈ xs, x < f) → convert t f (convert f t xs) = xs := by
  induction xs with
  | nil => intro _; simp [convert_nil]
  | cons x rest ih =>
    intro hxs
    by_cases hx : x = 0
    · subst hx
      cases rest with
      | nil =>
        have : convert f t [0] = [0] := by simp [convert, leading, norm, Nat.ofDigits]
        rw [this]
        simp [convert, leading, norm, Nat.ofDigits]
      | cons y r =>
        rw [convert_zero_cons]
        have hne := convert_ne_nil f t (List.cons_ne_nil y r)
        obtain ⟨z, zs, hz⟩ := List.exists_cons_of_ne_nil hne
        rw [hz, convert_zero_cons, ← hz, ih (fun a ha => hxs a (List.mem_cons_of_mem _ ha))]
    · have hne : (x :: rest).reverse ≠ [] := by simp
      have hlast : (x :: rest).reverse.getLast hne ≠ 0 := by
        rw [List.getLast_reverse]
        simpa using hx
      obtain ⟨h1, h2, h3⟩ := convert_reverse_of_getLast hf t (x :: rest).reverse hne hlast
        (fun a ha => hxs a (List.mem_reverse.mp ha))
      rw [List.reverse_reverse] at h3
      rw [h3]
      have hne2 : Nat.digits t (Nat.ofDigits f (x :: rest).reverse) ≠ [] :=
        Nat.digits_ne_nil_iff_ne_zero.mpr h2
      obtain ⟨_, _, h6⟩ := convert_reverse_of_getLast ht f _ hne2
        (Nat.getLast_digit_ne_zero t h2) (fun a ha => Nat.digits_lt_base ht ha)
      rw [h6, Nat.ofDigits_digits, h1, List.reverse_reverse]


theorem index_eq {α : Type} (xs : List α) (i : Nat) (h : i < xs.length) :
    index xs i = .ret xs[i] := by
  simp [index, List.getElem?_eq_getElem h]

theorem Encode_zeros_eq (zero : Byte) (source : List Byte) :
    ∀ (n k : Nat) (res : List Byte), k < source.length → source.length - k ≤ n →
      Encode.zeros zero source n k res
        = .ret (res ++ List.replicate (leading (fun x => x == 0) (source.drop k)) zero) := by
  intro n
  induction n with
  | zero => intro k res hk hn; omega
  | succ n ih =>
    intro k res hk hn
    rw [Encode.zeros, index_eq _ _ hk]
    simp only
    rw [List.drop_eq_getElem_cons hk]
    by_cases hlast : k < source.length - 1
    · have hk1 : k + 1 < source.length := by omega
      rw [List.drop_eq_getElem_cons hk1]
      by_cases hx : source[k] = 0
      · rw [if_pos ⟨hx, hlast⟩, ih (k + 1) _ hk1 (by omega), List.drop_eq_getElem_cons hk1]
        simp [leading, hx, List.replicate_succ]
      · rw [if_neg (fun h => hx h.1)]
        simp [leading, hx]
    · rw [if_neg (fun h => hlast h.2)]
      have : List.drop (k + 1) source = [] := List.drop_eq_nil_of_le (by omega)
      rw [this]
      simp [leading]

theorem Decode_zeros_eq (zero : Byte) (source : List Byte) :
    ∀ (n k : Nat) (bytes : List Byte), k < source.length → source.length - k ≤ n →
      Decode.zeros zero source n k bytes
        = .ret (bytes ++ List.replicate (leading (fun c => c == zero) (source.drop k)) 0) := by
  intro n
  induction n with
  | zero => intro k bytes hk hn; omega
  | succ n ih =>
    intro k bytes hk hn
    rw [Decode.zeros, index_eq _ _ hk]
    simp only
    rw [List.drop_eq_getElem_cons hk]
    by_cases hlast : k < source.length - 1
    · have hk1 : k + 1 < source.length := by omega
      rw [List.drop_eq_getElem_cons hk1]
      by_cases hx : source[k] = zero
      · rw [if_pos ⟨hx, hlast⟩, ih (k + 1) _ hk1 (by omega), List.drop_eq_getElem_cons hk1]
        simp [leading, hx, List.replicate_succ]
      · rw [if_neg (fun h => hx h.1)]
        simp [leading, hx]
    · rw [if_neg (fun h => hlast h.2)]
      have : List.drop (k + 1) source = [] := List.drop_eq_nil_of_le (by omega)
      rw [this]
      simp [leading]

theorem Encode_emit_eq (alphabet : List Byte) (digits : List Nat)
    (h : ∀ d ∈ digits, d < alphabet.length) :
    ∀ (q : Nat) (res : List Byte), q ≤ digits.length →
      Encode.emit alphabet digits q res
        = .ret (res ++ ((digits.take q).reverse.map (fun d => alphabet.getD d 0))) := by
  intro q
  induction q with
  | zero => intro res _; simp [Encode.emit]
  | succ q ih =>
    intro res hq
    have hq1 : q < digits.length := by omega
    have hd : digits[q] < alphabet.length := h _ (List.getElem_mem _)
    rw [Encode.emit, index_eq _ _ hq1]
    simp only
    rw [index_eq _ _ hd]
    simp only
    rw [ih _ (by omega), List.take_succ, List.getElem?_eq_getElem hq1]
    simp only [Option.toList, List.reverse_append, List.reverse_singleton, List.singleton_append,
      List.map_cons, List.append_assoc, List.getD_eq_getElem _ _ hd]

theorem set_length_append (pre : List Byte) (a b : Byte) (rest : List Byte) :
    (pre ++ a :: rest).set pre.length b = pre ++ b :: rest := by
  induction pre with
  | nil => rfl
  | cons x pre ih => simp [List.set, ih]

theorem index_length_append (pre : List Byte) (a : Byte) (rest : List Byte) :
    index (pre ++ a :: rest) pre.length = .ret a := by
  induction pre with
  | nil => simp [index]
  | cons x pre ih => simpa [index] using ih

theorem Decode_reverse_eq :
    ∀ (n : Nat) (mid pre post : List Byte), mid.length / 2 + 1 ≤ n →
      Decode.reverse n pre.length (pre.length + mid.length - 1) (pre ++ mid ++ post)
        = .ret (pre ++ mid.reverse ++ post) := by
  intro n
  induction n with
  | zero => intro mid pre post h; omega
  | succ n ih =>
    intro mid pre post h
    rw [Decode.reverse]
    cases mid with
    | nil => rw [if_neg (by simp)]; simp
    | cons a mid =>
      rcases List.eq_nil_or_concat mid with hm | ⟨mid', b, hm⟩
      · subst hm
        rw [if_neg (by simp)]; simp
      · rw [List.concat_eq_append] at hm
        subst hm
        have hij : pre.length < pre.length + (a :: (mid' ++ [b])).length - 1 := by
          simp only [List.length_cons, List.length_append, List.length_nil]; omega
        rw [if_pos hij]
        have hi : index (pre ++ a :: (mid' ++ [b]) ++ post) pre.length = .ret a := by
          have e : pre ++ a :: (mid' ++ [b]) ++ post = pre ++ a :: (mid' ++ [b] ++ post) := by simp
          rw [e, index_length_append]
        have hj : index (pre ++ a :: (mid' ++ [b]) ++ post)
            (pre.length + (a :: (mid' ++ [b])).length - 1) = .ret b := by
          have e : pre ++ a :: (mid' ++ [b]) ++ post = (pre ++ a :: mid') ++ b :: post := by simp
          have e2 : pre.length + (a :: (mid' ++ [b])).length - 1 = (pre ++ a :: mid').length := by
            simp only [List.length_cons, List.length_append, List.length_nil]; omega
          rw [e, e2, index_length_append]
        rw [hi]
        simp only
        rw [hj]
        simp only
        have hset : ((pre ++ a :: (mid' ++ [b]) ++ post).set pre.length b).set
            (pre.length + (a :: (mid' ++ [b])).length - 1) a
            = (pre ++ [b]) ++ mid' ++ (a :: post) := by
          have e1 : pre ++ a :: (mid' ++ [b]) ++ post = pre ++ a :: (mid' ++ [b] ++ post) := by simp
          rw [e1, set_length_append]
          have e2 : pre ++ b :: (mid' ++ [b] ++ post) = (pre ++ b :: mid') ++ b :: post := by simp
          have e3 : pre.length + (a :: (mid' ++ [b])).length - 1 = (pre ++ b :: mid').length := by
            simp only [List.length_cons, List.length_append, List.length_nil]; omega
          rw [e2, e3, set_length_append]
          simp
        have hidx : pre.length + (a :: (mid' ++ [b])).length - 1 - 1
            = (pre ++ [b]).length + mid'.length - 1 := by
          simp only [List.length_cons, List.length_append, List.length_nil]; omega
        have hlen : pre.length + 1 = (pre ++ [b]).length := by simp
        rw [hset, hidx, hlen, ih mid' (pre ++ [b]) (a :: post) (by
          simp only [List.length_cons, List.length_append, List.length_nil] at h
          omega)]
        simp

theorem Decode_reverse_all (bytes : List Byte) :
    Decode.reverse (bytes.length + 1) 0 (bytes.length - 1) bytes = .ret bytes.reverse := by
  have := Decode_reverse_eq (bytes.length + 1) bytes [] [] (by omega)
  simpa using this


theorem Built.base_gt {alphabet : List Byte} {e : Encoding} (hB : Built alphabet e)
    (h2 : 2 ≤ alphabet.length) : 1 < e.base := by
  rw [hB.base_eq]; omega

theorem Built.getD_zero {alphabet : List Byte} {e : Encoding} (hB : Built alphabet e) :
    alphabet.getD 0 0 = e.zero := by
  have := hB.zero_eq
  simp [List.getD, this]

/-- Closed form of `Encode`: the change of radix from 256 to the base, each
digit then written as its alphabet character. -/
theorem Encode_eq {alphabet : List Byte} {e : Encoding} (hB : Built alphabet e)
    (h2 : 2 ≤ alphabet.length) {fuel : Nat} (hf : 8 ≤ fuel) (p : List Byte) :
    e.Encode fuel p
      = .ret ((convert 256 e.base (p.map Fin.val)).map (fun d => alphabet.getD d 0)) := by
  have hb := hB.base_gt h2
  unfold Encoding.Encode
  by_cases hp : p = []
  · subst hp; simp [convert]
  have hlen : 0 < p.length := List.length_pos.mpr hp
  rw [if_neg (by omega)]
  have h0 : ([0] : List Nat) = norm e.base 0 := by simp [norm]
  rw [h0, Encode_scan_eq hb hf]
  simp only
  rw [Encode_zeros_eq _ _ _ _ _ hlen (by omega)]
  simp only
  rw [hB.alphabet_eq, Encode_emit_eq alphabet _
    (fun d hd => by rw [← hB.base_eq]; exact norm_lt hb _ d hd) _ _ (le_refl _)]
  rw [List.take_length, List.drop_zero, foldl_eq_ofDigits]
  unfold convert
  rw [if_neg (by simpa using hp), leading_map]
  simp only [List.nil_append, Nat.zero_mul, Nat.zero_add, List.map_append, List.map_replicate,
    hB.getD_zero]
  congr 3
  apply leading_congr
  intro x _
  rw [Bool.eq_iff_iff]
  simp [Fin.ext_iff]

/-- Closed form of `Decode` on a string of alphabet characters: the change of
radix from the base to 256 of the digits of its characters. -/
theorem Decode_eq {alphabet : List Byte} {e : Encoding} (hB : Built alphabet e)
    {fuel : Nat} (hf : 1 ≤ fuel) (s : List Byte) (hs : ∀ c ∈ s, c ∈ alphabet) :
    e.Decode fuel s
      = .ret (some ((convert e.base 256 (s.map (fun c => List.indexOf c alphabet))).map byte),
          none) := by
  unfold Encoding.Decode
  by_cases hp : s = []
  · subst hp; simp [convert]
  have hlen : 0 < s.length := List.length_pos.mpr hp
  rw [if_neg (by omega)]
  have h0 : ([0] : List Byte) = (norm 256 0).map byte := by simp [norm, byte]
  rw [h0, Decode_scan_ok hB hf s 0 hs]
  simp only
  rw [Decode_zeros_eq _ _ _ _ _ hlen (by omega)]
  simp only
  rw [Decode_reverse_all, List.drop_zero, foldl_eq_ofDigits]
  unfold convert
  rw [if_neg (by simpa using hp), leading_map]
  have hz : leading (fun c => c == e.zero) s
      = leading (fun a => List.indexOf a alphabet == 0) s := by
    apply leading_congr
    intro c hc
    have hk : List.indexOf c alphabet < alphabet.length := List.indexOf_lt_length.mpr (hs c hc)
    have hget : alphabet[List.indexOf c alphabet] = c := List.getElem_indexOf hk
    have hpos : 0 < alphabet.length := hB.len_pos
    have hz0 : alphabet[0] = e.zero := by
      have := hB.zero_eq
      rw [List.getElem?_eq_getElem hpos] at this
      exact Option.some.inj this
    by_cases hc0 : c = e.zero
    · have : List.indexOf c alphabet = 0 := by
        rw [hc0, ← hz0]
        exact List.indexOf_getElem hB.nodup 0 hpos
      rw [hc0] at this
      simp [hc0, this]
    · have : List.indexOf c alphabet ≠ 0 := by
        intro h0
        apply hc0
        rw [← hget, ← hz0]
        simp [h0]
      simp [hc0, this]
  rw [hz]
  simp only [Nat.zero_mul, Nat.zero_add, List.map_append, List.map_replicate, List.reverse_append,
    List.reverse_replicate, List.map_reverse]
  rfl


theorem Built.getD_mem {alphabet : List Byte} {d : Nat} (hd : d < alphabet.length) :
    alphabet.getD d 0 ∈ alphabet := by
  rw [List.getD_eq_getElem _ _ hd]
  exact List.getElem_mem _

theorem Built.indexOf_getD {alphabet : List Byte} {e : Encoding} (hB : Built alphabet e)
    (ds : List Nat) (hds : ∀ d ∈ ds, d < alphabet.length) :
    (ds.map (fun d => alphabet.getD d 0)).map (fun c => List.indexOf c alphabet) = ds := by
  induction ds with
  | nil => rfl
  | cons d ds ih =>
    have hd := hds d (List.mem_cons_self _ _)
    simp only [List.map_cons, List.cons.injEq]
    refine ⟨?_, ih (fun x hx => hds x (List.mem_cons_of_mem _ hx))⟩
    rw [List.getD_eq_getElem _ _ hd]
    exact List.indexOf_getElem hB.nodup d hd

theorem Built.getD_indexOf {alphabet : List Byte} (s : List Byte) (hs : ∀ c ∈ s, c ∈ alphabet) :
    (s.map (fun c => List.indexOf c alphabet)).map (fun d => alphabet.getD d 0) = s := by
  induction s with
  | nil => rfl
  | cons c s ih =>
    have hk : List.indexOf c alphabet < alphabet.length :=
      List.indexOf_lt_length.mpr (hs c (List.mem_cons_self _ _))
    simp only [List.map_cons, List.cons.injEq]
    refine ⟨?_, ih (fun x hx => hs x (List.mem_cons_of_mem _ hx))⟩
    rw [List.getD_eq_getElem _ _ hk]
    exact List.getElem_indexOf hk

theorem Decode_Encode {alphabet : List Byte} {e : Encoding} (hB : Built alphabet e)
    (h2 : 2 ≤ alphabet.length) {fuel fuel' : Nat} (hf : 8 ≤ fuel) (hf' : 1 ≤ fuel')
    (p : List Byte) :
    ∃ s, e.Encode fuel p = .ret s ∧ e.Decode fuel' s = .ret (some p, none) := by
  have hb := hB.base_gt h2
  have hlt : ∀ d ∈ convert 256 e.base (p.map Fin.val), d < alphabet.length := by
    intro d hd
    rw [← hB.base_eq]
    exact convert_lt 256 hb _ d hd
  refine ⟨_, Encode_eq hB h2 hf p, ?_⟩
  rw [Decode_eq hB hf' _ (by
    intro c hc
    obtain ⟨d, hd, rfl⟩ := List.mem_map.mp hc
    exact Built.getD_mem (hlt d hd))]
  rw [hB.indexOf_getD _ hlt, convert_convert (by norm_num) hb _ (by
    intro x hx
    obtain ⟨y, _, rfl⟩ := List.mem_map.mp hx
    exact y.isLt), map_byte_map_val]

theorem Encode_Decode {alphabet : List Byte} {e : Encoding} (hB : Built alphabet e)
    (h2 : 2 ≤ alphabet.length) {fuel fuel' : Nat} (hf : 8 ≤ fuel) (hf' : 1 ≤ fuel')
    (s : List Byte) (hs : ∀ c ∈ s, c ∈ alphabet) :
    ∃ bs, e.Decode fuel' s = .ret (some bs, none) ∧ e.Encode fuel bs = .ret s := by
  have hb := hB.base_gt h2
  refine ⟨_, Decode_eq hB hf' s hs, ?_⟩
  rw [Encode_eq hB h2 hf, map_val_map_byte _ (convert_lt _ (by norm_num) _),
    convert_convert hb (by norm_num) _ (by
      intro x hx
      obtain ⟨c, hc, rfl⟩ := List.mem_map.mp hx
      rw [hB.base_eq]
      exact List.indexOf_lt_length.mpr (hs c hc)),
    Built.getD_indexOf s hs]


theorem NewEncoding_base62 :
    NewEncoding branca.base62 = .ret (some (encodingOf branca.base62), none) := by decide!

theorem convert_replicate_append (f t : Nat) (N : Nat) (x : Nat) (rest : List Nat) :
    convert f t (List.replicate N 0 ++ x :: rest)
      = List.replicate N 0 ++ convert f t (x :: rest) := by
  induction N with
  | zero => simp
  | succ N ih =>
    obtain ⟨y, ys, hy⟩ : ∃ y ys, List.replicate N 0 ++ x :: rest = y :: ys :=
      List.exists_cons_of_ne_nil (by simp)
    rw [List.replicate_succ, List.cons_append, hy, convert_zero_cons, ← hy, ih]
    simp

theorem convert_replicate (f t : Nat) (N : Nat) (hN : 1 ≤ N) :
    convert f t (List.replicate N 0) = List.replicate N 0 := by
  induction N with
  | zero => omega
  | succ N ih =>
    cases N with
    | zero => simp [convert, leading, norm, Nat.ofDigits]
    | succ M =>
      rw [List.replicate_succ, List.replicate_succ, convert_zero_cons, ← List.replicate_succ,
        ih (by omega)]

theorem head?_map_reverse {α β : Type} (f : α → β) (L : List α) (h : L ≠ []) :
    (L.reverse.map f).head? = some (f (L.getLast h)) := by
  conv_lhs => rw [← List.dropLast_append_getLast h]
  simp

theorem Built.getD_ne_zero {alphabet : List Byte} {e : Encoding} (hB : Built alphabet e)
    {d : Nat} (hd : d < alphabet.length) (hd0 : d ≠ 0) : alphabet.getD d 0 ≠ e.zero := by
  intro hz
  have hi := List.indexOf_getElem hB.nodup d hd
  rw [List.getD_eq_getElem _ _ hd] at hz
  rw [hz, ← hB.getD_zero, List.getD_eq_getElem _ _ hB.len_pos,
    List.indexOf_getElem hB.nodup 0 hB.len_pos] at hi
  exact hd0 hi.symm

/-- C1: for every Encoding that NewEncoding returns from an alphabet of at
least two symbols and every byte sequence p, Encode returns (eight
iterations of its carry loop are enough) and Decode of the result returns,
with no error, exactly p. -/
theorem C1_decode_encode_round_trip (alphabet : List Byte) (e : Encoding)
    (hnew : NewEncoding alphabet = .ret (some e, none)) (h2 : 2 ≤ alphabet.length)
    (p : List Byte) (fuel fuel' : Nat) (hf : 8 ≤ fuel) (hf' : 1 ≤ fuel') :
    ∃ s, e.Encode fuel p = .ret s ∧ e.Decode fuel' s = .ret (some p, none) :=
  Decode_Encode (NewEncoding_built hnew) h2 hf hf' p

/-- C1 at the base62 alphabet and the bytes 0, 0, 1, 255. -/
theorem C1_decode_encode_round_trip_witness :
    NewEncoding branca.base62 = .ret (some (encodingOf branca.base62), none) ∧
      2 ≤ branca.base62.length ∧ 8 ≤ 8 ∧ 1 ≤ 1 ∧
      ∃ s, (encodingOf branca.base62).Encode 8 [0, 0, 1, 255] = .ret s ∧
        (encodingOf branca.base62).Decode 1 s = .ret (some [0, 0, 1, 255], none) :=
  ⟨by decide!, by decide, by decide, by decide,
    C1_decode_encode_round_trip branca.base62 (encodingOf branca.base62) (by decide!)
      (by decide) [0, 0, 1, 255] 8 1 (by decide) (by decide)⟩

/-- C3: for every Encoding that NewEncoding returns from an alphabet of at
least two symbols, every string s of alphabet characters decodes without
error and Encode of the decoded bytes is s again; hence two such strings
with the same decoding are equal. -/
theorem C3_encode_decode_canonical (alphabet : List Byte) (e : Encoding)
    (hnew : NewEncoding alphabet = .ret (some e, none)) (h2 : 2 ≤ alphabet.length)
    (fuel fuel' : Nat) (hf : 8 ≤ fuel) (hf' : 1 ≤ fuel') :
    (∀ s : List Byte, (∀ c ∈ s, c ∈ alphabet) →
      ∃ bs, e.Decode fuel' s = .ret (some bs, none) ∧ e.Encode fuel bs = .ret s) ∧
    (∀ s₁ s₂ : List Byte, (∀ c ∈ s₁, c ∈ alphabet) → (∀ c ∈ s₂, c ∈ alphabet) →
      e.Decode fuel' s₁ = e.Decode fuel' s₂ → s₁ = s₂) := by
  have hB := NewEncoding_built hnew
  refine ⟨fun s hs => Encode_Decode hB h2 hf hf' s hs, ?_⟩
  intro s₁ s₂ h₁ h₂ heq
  obtain ⟨b₁, hd₁, he₁⟩ := Encode_Decode hB h2 hf hf' s₁ h₁
  obtain ⟨b₂, hd₂, he₂⟩ := Encode_Decode hB h2 hf hf' s₂ h₂
  rw [hd₁, hd₂] at heq
  have hb : b₁ = b₂ := by
    have := congrArg Prod.fst (Outcome.ret.inj heq)
    exact Option.some.inj this
  rw [hb, he₂] at he₁
  exact (Outcome.ret.inj he₁).symm

/-- C3 at the base62 alphabet. -/
theorem C3_encode_decode_canonical_witness :
    NewEncoding branca.base62 = .ret (some (encodingOf branca.base62), none) ∧
      2 ≤ branca.base62.length ∧ 8 ≤ 8 ∧ 1 ≤ 1 ∧
      ((∀ s : List Byte, (∀ c ∈ s, c ∈ branca.base62) →
        ∃ bs, (encodingOf branca.base62).Decode 1 s = .ret (some bs, none) ∧
          (encodingOf branca.base62).Encode 8 bs = .ret s) ∧
      (∀ s₁ s₂ : List Byte, (∀ c ∈ s₁, c ∈ branca.base62) → (∀ c ∈ s₂, c ∈ branca.base62) →
        (encodingOf branca.base62).Decode 1 s₁ = (encodingOf branca.base62).Decode 1 s₂ →
          s₁ = s₂)) :=
  ⟨by decide!, by decide, by decide, by decide,
    C3_encode_decode_canonical branca.base62 (encodingOf branca.base62) (by decide!)
      (by decide) 8 1 (by decide) (by decide)⟩

/-- C4: for every Encoding that NewEncoding returns from an alphabet of at
least two symbols, with zero symbol z: Encode of N zero bytes followed by a
sequence r whose first byte is not zero is N copies of z followed by
Encode of r, which is not empty and does not begin with z; and Encode of
N ≥ 1 zero bytes is N copies of z. -/
theorem C4_leading_zero_rule (alphabet : List Byte) (e : Encoding)
    (hnew : NewEncoding alphabet = .ret (some e, none)) (h2 : 2 ≤ alphabet.length)
    (fuel : Nat) (hf : 8 ≤ fuel) :
    (∀ (N : Nat) (x : Byte) (rest : List Byte), x ≠ 0 →
      ∃ t, e.Encode fuel (x :: rest) = .ret t ∧ t ≠ [] ∧ t.head? ≠ some e.zero ∧
        e.Encode fuel (List.replicate N 0 ++ x :: rest)
          = .ret (List.replicate N e.zero ++ t)) ∧
    (∀ N : Nat, 1 ≤ N →
      e.Encode fuel (List.replicate N 0) = .ret (List.replicate N e.zero)) := by
  have hB := NewEncoding_built hnew
  have hb := hB.base_gt h2
  constructor
  · intro N x rest hx
    refine ⟨_, Encode_eq hB h2 hf (x :: rest), ?_, ?_, ?_⟩
    · intro h0
      have := List.map_eq_nil_iff.mp h0
      exact convert_ne_nil 256 e.base (by simp) this
    · have hne : ((x :: rest).map Fin.val).reverse ≠ [] := by simp
      have hlast : ((x :: rest).map Fin.val).reverse.getLast hne ≠ 0 := by
        rw [List.getLast_reverse]
        simpa [Fin.ext_iff] using hx
      obtain ⟨_, h2', h3⟩ := convert_reverse_of_getLast (f := 256) (by norm_num) e.base _ hne
        hlast (fun a ha => by
          obtain ⟨y, _, rfl⟩ := List.mem_map.mp (List.mem_reverse.mp ha)
          exact y.isLt)
      rw [List.reverse_reverse] at h3
      rw [h3]
      have hdne : Nat.digits e.base (Nat.ofDigits 256 ((x :: rest).map Fin.val).reverse) ≠ [] :=
        Nat.digits_ne_nil_iff_ne_zero.mpr h2'
      have htop := Nat.getLast_digit_ne_zero e.base h2'
      have hlt : (Nat.digits e.base (Nat.ofDigits 256 ((x :: rest).map Fin.val).reverse)).getLast
          hdne < alphabet.length := by
        rw [← hB.base_eq]
        exact Nat.digits_lt_base hb (List.getLast_mem _)
      rw [head?_map_reverse _ _ hdne]
      intro hz
      exact hB.getD_ne_zero hlt htop (Option.some.inj hz)
    · rw [Encode_eq hB h2 hf]
      congr 1
      rw [List.map_append, List.map_replicate, List.map_cons]
      have : ((0 : Byte) : Nat) = 0 := rfl
      rw [this, convert_replicate_append, List.map_append, List.map_replicate, hB.getD_zero]
  · intro N hN
    rw [Encode_eq hB h2 hf, List.map_replicate]
    have : ((0 : Byte) : Nat) = 0 := rfl
    rw [this, convert_replicate _ _ _ hN, List.map_replicate, hB.getD_zero]

/-- C4 at the base62 alphabet, with the value of Base62 on the bytes 0, 0, 1. -/
theorem C4_leading_zero_rule_witness :
    NewEncoding branca.base62 = .ret (some (encodingOf branca.base62), none) ∧
      2 ≤ branca.base62.length ∧ 8 ≤ 8 ∧
      ((∀ (N : Nat) (x : Byte) (rest : List Byte), x ≠ 0 →
        ∃ t, (encodingOf branca.base62).Encode 8 (x :: rest) = .ret t ∧ t ≠ [] ∧
          t.head? ≠ some (encodingOf branca.base62).zero ∧
          (encodingOf branca.base62).Encode 8 (List.replicate N 0 ++ x :: rest)
            = .ret (List.replicate N (encodingOf branca.base62).zero ++ t)) ∧
      (∀ N : Nat, 1 ≤ N → (encodingOf branca.base62).Encode 8 (List.replicate N 0)
        = .ret (List.replicate N (encodingOf branca.base62).zero))) ∧
      branca.Base62 8 [0, 0, 1] = .ret (ascii "001") :=
  ⟨by decide!, by decide, by decide,
    C4_leading_zero_rule branca.base62 (encodingOf branca.base62) (by decide!) (by decide) 8
      (by decide), by decide!⟩


theorem Decode_err {alphabet : List Byte} {e : Encoding} (hB : Built alphabet e)
    {fuel : Nat} (hf : 1 ≤ fuel) (s : List Byte) (hs : ∃ c ∈ s, c ∉ alphabet) :
    e.Decode fuel s = .ret (none, some "unexpected character found") := by
  unfold Encoding.Decode
  have hp : s ≠ [] := by
    obtain ⟨c, hc, _⟩ := hs
    exact List.ne_nil_of_mem hc
  have hlen : 0 < s.length := List.length_pos.mpr hp
  rw [if_neg (by omega)]
  have h0 : ([0] : List Byte) = (norm 256 0).map byte := by simp [norm, byte]
  rw [h0, Decode_scan_err hB hf s 0 hs]

theorem NewEncoding_good {alphabet : List Byte} (h0 : alphabet ≠ []) (h1 : alphabet.length ≤ 128)
    (h2 : ∀ c ∈ alphabet, c.val < 128) (h3 : alphabet.Nodup) :
    ∃ e, NewEncoding alphabet = .ret (some e, none) := by
  have hpos : 0 < alphabet.length := List.length_pos.mpr h0
  unfold NewEncoding
  rw [if_neg (by omega), if_neg (by omega), List.getElem?_eq_getElem hpos]
  simp only
  obtain ⟨M, hM, _⟩ := NewEncoding.loop_ok alphabet 0
    { base := alphabet.length, alphabet := alphabet,
      alphabetMap := List.replicate 128 0, zero := alphabet[0] }
    (by simp) (by simp; omega)
    (fun c hc => ⟨h2 c hc, by simp only; rw [List.getElem?_replicate, if_pos (h2 c hc)]⟩) h3
  exact ⟨_, hM⟩

theorem NewEncoding_bad {alphabet : List Byte}
    (h : alphabet = [] ∨ 128 < alphabet.length ∨ (∃ c ∈ alphabet, 128 ≤ c.val) ∨
      ¬ alphabet.Nodup) :
    ∃ msg, NewEncoding alphabet = .ret (none, some msg) := by
  unfold NewEncoding
  by_cases h0 : alphabet.length = 0
  · exact ⟨_, by rw [if_pos h0]⟩
  rw [if_neg h0]
  by_cases h1 : alphabet.length > 128
  · exact ⟨_, by rw [if_pos h1]⟩
  rw [if_neg h1]
  have hpos : 0 < alphabet.length := Nat.pos_of_ne_zero h0
  rw [List.getElem?_eq_getElem hpos]
  simp only
  apply NewEncoding.loop_err alphabet 0 _ (by simp) (by simp; omega)
  intro hgood
  rcases h with h | h | ⟨c, hc, hge⟩ | h
  · exact h0 (by rw [h]; rfl)
  · exact h1 h
  · have := (hgood.1 c hc).1
    omega
  · exact h hgood.2

/-- C5: for every Encoding that NewEncoding returns and every string s,
Decode returns (one iteration of its carry loop is enough); it returns an
error exactly when s has a byte outside the alphabet, and then the byte
slice is nil; the empty string decodes without error to the empty
sequence; and no byte from 128 up is in the alphabet. -/
theorem C5_decode_error_iff_foreign (alphabet : List Byte) (e : Encoding)
    (hnew : NewEncoding alphabet = .ret (some e, none)) (fuel : Nat) (hf : 1 ≤ fuel)
    (s : List Byte) :
    (∃ bytes err, e.Decode fuel s = .ret (bytes, err) ∧
      (err ≠ none ↔ ∃ c ∈ s, c ∉ alphabet) ∧ (err ≠ none → bytes = none)) ∧
    e.Decode fuel [] = .ret (some [], none) ∧
    (∀ c : Byte, 128 ≤ c.val → c ∉ alphabet) := by
  have hB := NewEncoding_built hnew
  refine ⟨?_, by simp [Encoding.Decode], ?_⟩
  · by_cases hs : ∃ c ∈ s, c ∉ alphabet
    · exact ⟨none, some "unexpected character found", Decode_err hB hf s hs,
        ⟨fun _ => hs, fun _ => by simp⟩, fun _ => rfl⟩
    · have hall : ∀ c ∈ s, c ∈ alphabet := by
        intro c hc
        by_contra hn
        exact hs ⟨c, hc, hn⟩
      exact ⟨_, none, Decode_eq hB hf s hall, ⟨fun h => absurd rfl h, fun h => absurd h hs⟩,
        fun h => absurd rfl h⟩
  · intro c hc hmem
    have := hB.ascii c hmem
    omega

/-- C5 at the base62 alphabet and the string "0-". -/
theorem C5_decode_error_iff_foreign_witness :
    NewEncoding branca.base62 = .ret (some (encodingOf branca.base62), none) ∧ 1 ≤ 1 ∧
      ((∃ bytes err, (encodingOf branca.base62).Decode 1 (ascii "0-") = .ret (bytes, err) ∧
        (err ≠ none ↔ ∃ c ∈ ascii "0-", c ∉ branca.base62) ∧ (err ≠ none → bytes = none)) ∧
      (encodingOf branca.base62).Decode 1 [] = .ret (some [], none) ∧
      (∀ c : Byte, 128 ≤ c.val → c ∉ branca.base62)) :=
  ⟨by decide!, by decide,
    C5_decode_error_iff_foreign branca.base62 (encodingOf branca.base62) (by decide!) 1
      (by decide) (ascii "0-")⟩

/-- C6: NewEncoding returns an error exactly when the alphabet is empty, or
longer than 128 bytes, or has a byte from 128 up, or has a character
twice; otherwise it returns an Encoding whose base is the length of the
alphabet and whose zero symbol is its first character. -/
theorem C6_alphabet_validation (alphabet : List Byte) :
    ((∃ enc msg, NewEncoding alphabet = .ret (enc, some msg)) ↔
      (alphabet = [] ∨ 128 < alphabet.length ∨ (∃ c ∈ alphabet, 128 ≤ c.val) ∨
        ¬ alphabet.Nodup)) ∧
    (¬ (alphabet = [] ∨ 128 < alphabet.length ∨ (∃ c ∈ alphabet, 128 ≤ c.val) ∨
        ¬ alphabet.Nodup) →
      ∃ e, NewEncoding alphabet = .ret (some e, none) ∧ e.base = alphabet.length ∧
        alphabet[0]? = some e.zero) := by
  have hgood : ¬ (alphabet = [] ∨ 128 < alphabet.length ∨ (∃ c ∈ alphabet, 128 ≤ c.val) ∨
      ¬ alphabet.Nodup) → ∃ e, NewEncoding alphabet = .ret (some e, none) := by
    intro hn
    simp only [not_or, not_exists, not_and, not_not, not_lt, not_le] at hn
    exact NewEncoding_good hn.1 hn.2.1 hn.2.2.1 hn.2.2.2
  constructor
  · constructor
    · rintro ⟨enc, msg, h⟩
      by_contra hn
      obtain ⟨e, he⟩ := hgood hn
      rw [he] at h
      cases h
    · intro h
      obtain ⟨msg, hmsg⟩ := NewEncoding_bad h
      exact ⟨none, msg, hmsg⟩
  · intro hn
    obtain ⟨e, he⟩ := hgood hn
    have hB := NewEncoding_built he
    exact ⟨e, he, hB.base_eq, hB.zero_eq⟩

/-- C6 at the base62 alphabet, which is accepted, and at three rejected
alphabets: "aa", 129 characters, and the single byte 200. -/
theorem C6_alphabet_validation_witness :
    (¬ (branca.base62 = [] ∨ 128 < branca.base62.length ∨
        (∃ c ∈ branca.base62, 128 ≤ c.val) ∨ ¬ branca.base62.Nodup) ∧
      ∃ e, NewEncoding branca.base62 = .ret (some e, none) ∧ e.base = branca.base62.length ∧
        branca.base62[0]? = some e.zero) ∧
    (¬ (ascii "aa").Nodup ∧ ∃ enc msg, NewEncoding (ascii "aa") = .ret (enc, some msg)) ∧
    (128 < (List.replicate 129 (byte 48)).length ∧
      ∃ enc msg, NewEncoding (List.replicate 129 (byte 48)) = .ret (enc, some msg)) ∧
    ((∃ c ∈ [byte 200], 128 ≤ c.val) ∧ ∃ enc msg, NewEncoding [byte 200] = .ret (enc, some msg)) :=
  ⟨⟨by decide!, (C6_alphabet_validation branca.base62).2 (by decide!)⟩,
    ⟨by decide!, (C6_alphabet_validation (ascii "aa")).1.mpr (Or.inr (Or.inr (Or.inr (by decide!))))⟩,
    ⟨by decide!, (C6_alphabet_validation (List.replicate 129 (byte 48))).1.mpr
      (Or.inr (Or.inl (by decide!)))⟩,
    ⟨by decide!, (C6_alphabet_validation [byte 200]).1.mpr
      (Or.inr (Or.inr (Or.inl (by decide!))))⟩⟩

/-- C7 as stated fails: NewEncoding accepts the one-symbol alphabet "a" and
returns an Encoding of base 1. -/
theorem C7_counterexample :
    NewEncoding (ascii "a") = .ret (some (encodingOf (ascii "a")), none) ∧
      (encodingOf (ascii "a")).base = 1 ∧
      ¬ (∀ (alphabet : List Byte) (e : Encoding),
        NewEncoding alphabet = .ret (some e, none) → 2 ≤ e.base ∧ e.base ≤ 128) :=
  ⟨by decide!, by decide, fun h =>
    absurd (h (ascii "a") (encodingOf (ascii "a")) (by decide!)).1 (by decide)⟩

/-- C7, amended: every Encoding that NewEncoding returns without error has a
base between 1 and 128, the number of symbols of its alphabet. -/
theorem C7_base_bounds (alphabet : List Byte) (e : Encoding)
    (hnew : NewEncoding alphabet = .ret (some e, none)) :
    1 ≤ e.base ∧ e.base ≤ 128 ∧ e.base = alphabet.length := by
  have hB := NewEncoding_built hnew
  have h1 := hB.len_pos
  have h2 := hB.len_le
  have h3 := hB.base_eq
  omega

/-- C7, amended, at the base62 alphabet. -/
theorem C7_base_bounds_witness :
    NewEncoding branca.base62 = .ret (some (encodingOf branca.base62), none) ∧
      (1 ≤ (encodingOf branca.base62).base ∧ (encodingOf branca.base62).base ≤ 128 ∧
        (encodingOf branca.base62).base = branca.base62.length) :=
  ⟨by decide!, C7_base_bounds branca.base62 (encodingOf branca.base62) (by decide!)⟩

end basex

namespace branca

open basex

theorem base62Enc_eq : base62Enc = .ret (encodingOf base62) := by decide!

theorem base62_built : Built base62 (encodingOf base62) :=
  NewEncoding_built NewEncoding_base62

theorem toyAEAD_lawful : toyAEAD.Lawful := by
  constructor
  intro dst nonce plaintext ad _
  refine ⟨plaintext ++ toyTag nonce plaintext ad, by simp [toyAEAD], by simp [toyTag], ?_⟩
  have hl : (plaintext ++ toyTag nonce plaintext ad).length - 16 = plaintext.length := by
    simp [toyTag]
  refine ⟨some plaintext, ?_, rfl⟩
  simp only [toyAEAD]
  rw [if_neg (by simp [toyTag]), hl, List.take_left' rfl, List.drop_left' rfl, if_pos rfl]
  rfl

/-- The Seal call that `EncodeToRawAtTime` makes. -/
theorem EncodeToRawAtTime_eq (b : Branca) (payload : List Byte) (nonce : Nonce) (t : Time) :
    b.EncodeToRawAtTime payload nonce t
      = b.encrypter.Seal
          (version :: byte ((if !t.IsZero then uint32 t.Unix else 0) >>> 24)
            :: byte ((if !t.IsZero then uint32 t.Unix else 0) >>> 16)
            :: byte ((if !t.IsZero then uint32 t.Unix else 0) >>> 8)
            :: byte (if !t.IsZero then uint32 t.Unix else 0) :: nonce.val)
          nonce.val payload
          (version :: byte ((if !t.IsZero then uint32 t.Unix else 0) >>> 24)
            :: byte ((if !t.IsZero then uint32 t.Unix else 0) >>> 16)
            :: byte ((if !t.IsZero then uint32 t.Unix else 0) >>> 8)
            :: byte (if !t.IsZero then uint32 t.Unix else 0) :: nonce.val) := by
  have hn := nonce.property
  obtain ⟨z, hz, hzl⟩ : ∃ z : List Byte,
      List.replicate (1 + 4 + 24 + payload.length + 16) (0 : Byte) = 0 :: 0 :: 0 :: 0 :: 0 :: z ∧
        z.length = payload.length + 40 := by
    refine ⟨List.replicate (payload.length + 40) 0, ?_, by simp⟩
    rw [show 1 + 4 + 24 + payload.length + 16 = (payload.length + 40) + 5 by omega]
    rfl
  unfold Branca.EncodeToRawAtTime
  simp only [hz, List.set_cons_zero, List.take_succ_cons, List.take_zero,
    List.drop_succ_cons, List.drop_zero, PutUint32, copy, List.cons_append, List.nil_append,
    List.append_nil]
  have h1 : List.take z.length nonce.val = nonce.val := List.take_of_length_le (by omega)
  have h2 : List.take 24 (nonce.val ++ List.drop nonce.val.length z) = nonce.val := by
    rw [List.take_append_of_le_length (by omega)]
    exact List.take_of_length_le (by omega)
  rw [h1, h2]


theorem Uint32_bytes (ts : Nat) (h : ts < 4294967296) (rest : List Byte) :
    Uint32 (byte (ts >>> 24) :: byte (ts >>> 16) :: byte (ts >>> 8) :: byte ts :: rest)
      = .ret ts := by
  simp only [Uint32, byte, Nat.shiftRight_eq_div_pow]
  congr 1
  omega

theorem uint32_lt (x : Int) : uint32 x < 4294967296 := by
  unfold uint32
  omega

/-- What `DecodeRaw` does with a header followed by a ciphertext that the AEAD opens. -/
theorem DecodeRaw_envelope (b : Branca) (ts : Nat) (hts : ts < 4294967296) (nonce : Nonce)
    (ct : List Byte) (hct : 16 ≤ ct.length) (out : Option (List Byte))
    (hopen : b.encrypter.Open none nonce.val ct
      (version :: byte (ts >>> 24) :: byte (ts >>> 16) :: byte (ts >>> 8) :: byte ts
        :: nonce.val) = .ret (out, none)) :
    b.DecodeRaw ((version :: byte (ts >>> 24) :: byte (ts >>> 16) :: byte (ts >>> 8) :: byte ts
        :: nonce.val) ++ ct)
      = .ret (out, if (ts : Int) ≠ 0 then Time.ofUnix ts else Time.zero, none) := by
  have hn := nonce.property
  have hlen : (version :: byte (ts >>> 24) :: byte (ts >>> 16) :: byte (ts >>> 8) :: byte ts
      :: nonce.val).length = 1 + 4 + 24 := by simp [hn]
  unfold Branca.DecodeRaw
  rw [if_neg (by simp only [List.length_append, hlen]; omega)]
  simp only [List.take_left' hlen, List.drop_left' hlen]
  have hnonce : List.drop (1 + 4) (List.take (1 + 4 + 24)
      (version :: byte (ts >>> 24) :: byte (ts >>> 16) :: byte (ts >>> 8) :: byte ts
        :: nonce.val)) = nonce.val := by
    rw [List.take_of_length_le (by rw [hlen])]
    rfl
  rw [hnonce, hopen]
  simp only [index, List.getElem?_cons_zero, ne_eq, not_true_eq_false, if_false]
  have htake : List.drop 1 (List.take (1 + 4)
      ((version :: byte (ts >>> 24) :: byte (ts >>> 16) :: byte (ts >>> 8) :: byte ts
        :: nonce.val) ++ ct))
      = [byte (ts >>> 24), byte (ts >>> 16), byte (ts >>> 8), byte ts] := by
    simp
  rw [htake, Uint32_bytes ts hts]

theorem Time.eq_of_stored (t : Time)
    (ht : t = Time.zero ∨ (t.nsec = 0 ∧ 1 ≤ t.Unix ∧ t.Unix ≤ 4294967295)) :
    (if (((if !t.IsZero then uint32 t.Unix else 0 : Nat) : Int)) ≠ 0
      then Time.ofUnix ((if !t.IsZero then uint32 t.Unix else 0 : Nat) : Int) else Time.zero) = t := by
  rcases ht with rfl | ⟨h0, h1, h2⟩
  · simp [Time.IsZero, Time.zero]
  · have hnz : t.IsZero = false := by
      simp only [Time.IsZero, Time.Unix, Time.unixToInternal] at h1 ⊢
      have : t.sec ≠ 0 := by omega
      simp [this]
    have hu : ((uint32 t.Unix : Nat) : Int) = t.Unix := by
      unfold uint32
      omega
    simp only [hnz, Bool.not_false, if_true, hu]
    rw [if_pos (by omega)]
    cases t with
    | mk sec nsec =>
      simp only [Time.ofUnix, Time.Unix, Time.unixToInternal] at h0 ⊢
      subst h0
      congr 1
      omega

theorem envelope_round_trip {b : Branca} (hlaw : b.encrypter.Lawful) (p : List Byte)
    (n : Nonce) (t : Time)
    (ht : t = Time.zero ∨ (t.nsec = 0 ∧ 1 ≤ t.Unix ∧ t.Unix ≤ 4294967295)) :
    ∃ raw out, b.EncodeToRawAtTime p n t = .ret raw ∧ b.DecodeRaw raw = .ret (out, t, none) ∧
      bytesOf out = p := by
  obtain ⟨ct, hseal, hctlen, out, hopen, hout⟩ := hlaw.seal_open
    (version :: byte ((if !t.IsZero then uint32 t.Unix else 0) >>> 24)
      :: byte ((if !t.IsZero then uint32 t.Unix else 0) >>> 16)
      :: byte ((if !t.IsZero then uint32 t.Unix else 0) >>> 8)
      :: byte (if !t.IsZero then uint32 t.Unix else 0) :: n.val)
    n.val p
    (version :: byte ((if !t.IsZero then uint32 t.Unix else 0) >>> 24)
      :: byte ((if !t.IsZero then uint32 t.Unix else 0) >>> 16)
      :: byte ((if !t.IsZero then uint32 t.Unix else 0) >>> 8)
      :: byte (if !t.IsZero then uint32 t.Unix else 0) :: n.val) n.property
  have hts : (if !t.IsZero then uint32 t.Unix else 0) < 4294967296 := by
    split
    · exact uint32_lt _
    · norm_num
  refine ⟨_, out, (EncodeToRawAtTime_eq b p n t).trans hseal, ?_, hout⟩
  rw [DecodeRaw_envelope b _ hts n ct (by omega) out hopen, Time.eq_of_stored t ht]


/-- C2 as stated fails: the Unix epoch is a non-zero time whose stored
timestamp is 0, so it comes back from the envelope as the zero time (the
toy AEAD used here does open what it seals). -/
theorem C2_counterexample :
    toyAEAD.Lawful ∧
      ((Branca.mk toyAEAD).EncodeToRawAtTime (ascii "Hello world!") testNonce (Time.ofUnix 0)).bind
          (Branca.mk toyAEAD).DecodeRaw
        = .ret (some (ascii "Hello world!"), Time.zero, none) ∧
      Time.zero ≠ Time.ofUnix 0 :=
  ⟨toyAEAD_lawful, by decide!, by decide⟩

/-- C2, amended: for every payload p, 24-byte nonce n and Branca value b (New
stores in b the AEAD of the key, which is all the key is used for) whose
AEAD opens what it seals, and every time t that is the zero time or a whole
number s of seconds after the Unix epoch with 1 ≤ s ≤ 2^32 - 1, both
Decode of Base62 of the envelope and DecodeRaw of the envelope return no
error, the payload p and the time t. -/
theorem C2_envelope_round_trip (b : Branca) (hlaw : b.encrypter.Lawful) (p : List Byte)
    (n : Nonce) (t : Time)
    (ht : t = Time.zero ∨ (t.nsec = 0 ∧ 1 ≤ t.Unix ∧ t.Unix ≤ 4294967295))
    (fuel fuel' : Nat) (hf : 8 ≤ fuel) (hf' : 1 ≤ fuel') :
    ∃ raw tok out, b.EncodeToRawAtTime p n t = .ret raw ∧ Base62 fuel raw = .ret tok ∧
      b.Decode fuel' tok = .ret (out, t, none) ∧ b.DecodeRaw raw = .ret (out, t, none) ∧
      bytesOf out = p := by
  obtain ⟨raw, out, henc, hdec, hout⟩ := envelope_round_trip hlaw p n t ht
  obtain ⟨tok, htok, hback⟩ := Decode_Encode base62_built (by decide) hf hf' raw
  refine ⟨raw, tok, out, henc, ?_, ?_, hdec, hout⟩
  · unfold Base62
    rw [base62Enc_eq]
    exact htok
  · unfold Branca.Decode
    rw [base62Enc_eq]
    simp only
    rw [hback]
    exact hdec

/-- C2, amended, for the Branca value that New builds from the test key with
the toy AEAD, the test nonce, the payload "Hello world!" and the time of
TestVector1. -/
theorem C2_envelope_round_trip_witness :
    New toyNewX testKey = .ret (Branca.mk toyAEAD) ∧ toyAEAD.Lawful ∧
      (Time.ofUnix 123206400 = Time.zero ∨ ((Time.ofUnix 123206400).nsec = 0 ∧
        1 ≤ (Time.ofUnix 123206400).Unix ∧ (Time.ofUnix 123206400).Unix ≤ 4294967295)) ∧
      8 ≤ 8 ∧ 1 ≤ 1 ∧
      ∃ raw tok out,
        (Branca.mk toyAEAD).EncodeToRawAtTime (ascii "Hello world!") testNonce
          (Time.ofUnix 123206400) = .ret raw ∧
        Base62 8 raw = .ret tok ∧
        (Branca.mk toyAEAD).Decode 1 tok = .ret (out, Time.ofUnix 123206400, none) ∧
        (Branca.mk toyAEAD).DecodeRaw raw = .ret (out, Time.ofUnix 123206400, none) ∧
        bytesOf out = ascii "Hello world!" :=
  ⟨rfl, toyAEAD_lawful, Or.inr (by decide), by decide, by decide,
    C2_envelope_round_trip (Branca.mk toyAEAD) toyAEAD_lawful (ascii "Hello world!") testNonce
      (Time.ofUnix 123206400) (Or.inr (by decide)) 8 1 (by decide) (by decide)⟩

/-- C8: on an input of at least 45 bytes the outcome of DecodeRaw is fixed by
what the AEAD Open returns for nonce data[5:29], ciphertext data[29:] and
associated data data[0:29]: an error of Open is returned as it is, with a
nil payload and the zero time, whatever data[0] is; and the error is the
version error exactly when Open succeeds and data[0] is not 0xBA. -/
theorem C8_authentication_before_version (b : Branca) (data : List Byte)
    (hlen : 45 ≤ data.length) (out : Option (List Byte)) (err : Option String)
    (hopen : b.encrypter.Open none ((data.take 29).drop 5) (data.drop 29) (data.take 29)
      = .ret (out, err)) :
    (∀ msg, err = some msg → b.DecodeRaw data = .ret (none, Time.zero, some (.aead msg))) ∧
    ((∃ pl t, b.DecodeRaw data = .ret (pl, t, some .errInvalidTokenVersion)) ↔
      (err = none ∧ data[0]? ≠ some version)) ∧
    (∀ b' : Branca,
      b'.encrypter.Open none ((data.take 29).drop 5) (data.drop 29) (data.take 29)
        = .ret (out, err) → b'.DecodeRaw data = b.DecodeRaw data) := by
  obtain ⟨d0, d1, d2, d3, d4, rest, rfl⟩ : ∃ d0 d1 d2 d3 d4 rest,
      data = d0 :: d1 :: d2 :: d3 :: d4 :: rest := by
    match data, hlen with
    | d0 :: d1 :: d2 :: d3 :: d4 :: rest, _ => exact ⟨d0, d1, d2, d3, d4, rest, rfl⟩
  have hshape : ∀ b' : Branca,
      b'.encrypter.Open none (((d0 :: d1 :: d2 :: d3 :: d4 :: rest).take 29).drop 5)
        ((d0 :: d1 :: d2 :: d3 :: d4 :: rest).drop 29)
        ((d0 :: d1 :: d2 :: d3 :: d4 :: rest).take 29) = .ret (out, err) →
      b'.DecodeRaw (d0 :: d1 :: d2 :: d3 :: d4 :: rest) =
        match err with
        | some msg => .ret (none, Time.zero, some (.aead msg))
        | none =>
          if d0 ≠ version then .ret (none, Time.zero, some .errInvalidTokenVersion)
          else .ret (out, if ((d4.val + d3.val * 2 ^ 8 + d2.val * 2 ^ 16 + d1.val * 2 ^ 24 : Nat)
            : Int) ≠ 0 then Time.ofUnix ((d4.val + d3.val * 2 ^ 8 + d2.val * 2 ^ 16
              + d1.val * 2 ^ 24 : Nat) : Int) else Time.zero, none) := by
    intro b' h'
    unfold Branca.DecodeRaw
    rw [if_neg (by omega)]
    simp only [List.take_take, Nat.min_self]
    rw [h']
    cases err with
    | some msg => rfl
    | none =>
      simp only [index, List.take_succ_cons, List.getElem?_cons_zero, List.drop_succ_cons,
        List.drop_zero, List.take_zero, Uint32]
  refine ⟨?_, ?_, ?_⟩
  · intro msg hmsg
    subst hmsg
    exact hshape b hopen
  · rw [hshape b hopen]
    cases err with
    | some msg => simp
    | none =>
      by_cases hv : d0 = version
      · simp [hv]
      · simp [hv]
  · intro b' h'
    rw [hshape b' h', hshape b hopen]


/-- C8 for the toy AEAD and a valid envelope whose version byte was changed
to 0xBB: Open rejects the changed associated data, and DecodeRaw returns
that error, not the version error. -/
theorem C8_authentication_before_version_witness :
    45 ≤ tamperedEnvelope.length ∧
      toyAEAD.Open none ((tamperedEnvelope.take 29).drop 5) (tamperedEnvelope.drop 29)
        (tamperedEnvelope.take 29) = .ret (none, some "toy: message authentication failed") ∧
      ((Branca.mk toyAEAD).EncodeToRawAtTime (ascii "Hello world!") testNonce
          (Time.ofUnix 123206400)).bind (fun raw => .ret (raw.set 0 0xBB))
        = .ret tamperedEnvelope ∧
      ((∀ msg, some "toy: message authentication failed" = some msg →
        (Branca.mk toyAEAD).DecodeRaw tamperedEnvelope
          = .ret (none, Time.zero, some (.aead msg))) ∧
      ((∃ pl t, (Branca.mk toyAEAD).DecodeRaw tamperedEnvelope
          = .ret (pl, t, some .errInvalidTokenVersion)) ↔
        ((some "toy: message authentication failed" : Option String) = none ∧
          tamperedEnvelope[0]? ≠ some version)) ∧
      (∀ b' : Branca,
        b'.encrypter.Open none ((tamperedEnvelope.take 29).drop 5) (tamperedEnvelope.drop 29)
          (tamperedEnvelope.take 29) = .ret (none, some "toy: message authentication failed") →
        b'.DecodeRaw tamperedEnvelope = (Branca.mk toyAEAD).DecodeRaw tamperedEnvelope)) :=
  ⟨by decide, by decide!, by decide!,
    C8_authentication_before_version (Branca.mk toyAEAD) tamperedEnvelope (by decide) none
      (some "toy: message authentication failed") (by decide!)⟩

/-- C9: on an input shorter than 45 bytes DecodeRaw returns the error
"invalid base62 token" with a nil payload and the zero time, whatever the
AEAD is (also one whose Open panics when called, so Open is not called);
on an input of 45 bytes or more it never returns that error; and the
envelope of the empty payload has exactly 45 bytes. -/
theorem C9_minimum_length (b : Branca) (data : List Byte) :
    (data.length < 45 → b.DecodeRaw data = .ret (none, Time.zero, some .errInvalidToken)) ∧
    (45 ≤ data.length → ∀ pl t, b.DecodeRaw data ≠ .ret (pl, t, some .errInvalidToken)) ∧
    (b.encrypter.Lawful → ∀ (n : Nonce) (t : Time),
      ∃ raw, b.EncodeToRawAtTime [] n t = .ret raw ∧ raw.length = 45) := by
  refine ⟨?_, ?_, ?_⟩
  · intro h
    unfold Branca.DecodeRaw
    rw [if_pos (by omega)]
  · intro h pl t
    unfold Branca.DecodeRaw
    rw [if_neg (by omega)]
    simp only
    split
    · simp
    · split
      · split
        · simp
        · split <;> simp
      · simp
      · simp
    · simp
    · simp
  · intro hlaw n t
    rw [EncodeToRawAtTime_eq]
    obtain ⟨ct, hseal, hctlen, _⟩ := hlaw.seal_open
      (version :: byte ((if !t.IsZero then uint32 t.Unix else 0) >>> 24)
        :: byte ((if !t.IsZero then uint32 t.Unix else 0) >>> 16)
        :: byte ((if !t.IsZero then uint32 t.Unix else 0) >>> 8)
        :: byte (if !t.IsZero then uint32 t.Unix else 0) :: n.val)
      n.val []
      (version :: byte ((if !t.IsZero then uint32 t.Unix else 0) >>> 24)
        :: byte ((if !t.IsZero then uint32 t.Unix else 0) >>> 16)
        :: byte ((if !t.IsZero then uint32 t.Unix else 0) >>> 8)
        :: byte (if !t.IsZero then uint32 t.Unix else 0) :: n.val) n.property
    refine ⟨_, hseal, ?_⟩
    have hn := n.property
    simp only [List.length_append, List.length_cons, hn, hctlen, List.length_nil]

/-- C9 for 44 zero bytes and an AEAD whose Open would panic, for 45 zero
bytes, and for the toy AEAD. -/
theorem C9_minimum_length_witness :
    ((List.replicate 44 (0 : Byte)).length < 45 ∧
      (Branca.mk panickingAEAD).DecodeRaw (List.replicate 44 0)
        = .ret (none, Time.zero, some .errInvalidToken)) ∧
    (45 ≤ (List.replicate 45 (0 : Byte)).length ∧
      ∀ pl t, (Branca.mk toyAEAD).DecodeRaw (List.replicate 45 0)
        ≠ .ret (pl, t, some .errInvalidToken)) ∧
    (toyAEAD.Lawful ∧ ∀ (n : Nonce) (t : Time),
      ∃ raw, (Branca.mk toyAEAD).EncodeToRawAtTime [] n t = .ret raw ∧ raw.length = 45) :=
  ⟨⟨by decide, (C9_minimum_length (Branca.mk panickingAEAD) (List.replicate 44 0)).1 (by decide)⟩,
    ⟨by decide, (C9_minimum_length (Branca.mk toyAEAD) (List.replicate 45 0)).2.1 (by decide)⟩,
    ⟨toyAEAD_lawful, (C9_minimum_length (Branca.mk toyAEAD) []).2.2 toyAEAD_lawful⟩⟩

/-- C10: for every Branca value and every token, if the token has a
character outside the base62 alphabet, or if its base62 decoding is
shorter than 45 bytes, Decode returns the error "invalid base62 token"
with a nil payload and the zero time. -/
theorem C10_malformed_token (b : Branca) (fuel : Nat) (hf : 1 ≤ fuel) (token : List Byte)
    (h : (∃ c ∈ token, c ∉ base62) ∨
      (∃ enc data, base62Enc = .ret enc ∧ enc.Decode fuel token = .ret (data, none) ∧
        (bytesOf data).length < 45)) :
    b.Decode fuel token = .ret (none, Time.zero, some .errInvalidToken) := by
  unfold Branca.Decode
  rcases h with h | ⟨enc, data, henc, hdec, hlen⟩
  · rw [base62Enc_eq]
    simp only
    rw [Decode_err base62_built hf token h]
  · rw [henc]
    simp only
    rw [hdec]
    simp only
    unfold Branca.DecodeRaw
    rw [if_pos (by omega)]

/-- C10 for the token of TestVector1 with "-" appended and for its first 25
characters, with an AEAD whose Open would panic if it were called. -/
theorem C10_malformed_token_witness :
    (1 ≤ 1 ∧ (∃ c ∈ testToken ++ ascii "-", c ∉ base62) ∧
      (Branca.mk panickingAEAD).Decode 1 (testToken ++ ascii "-")
        = .ret (none, Time.zero, some .errInvalidToken)) ∧
    ((∃ enc data, base62Enc = .ret enc ∧
        enc.Decode 1 (ascii "875GH233T7IYrxtgXxlQBYiFo") = .ret (data, none) ∧
        (bytesOf data).length < 45) ∧
      (Branca.mk panickingAEAD).Decode 1 (ascii "875GH233T7IYrxtgXxlQBYiFo")
        = .ret (none, Time.zero, some .errInvalidToken)) :=
  ⟨⟨by decide, ⟨byte 45, by decide!, by decide!⟩,
      C10_malformed_token (Branca.mk panickingAEAD) 1 (by decide) (testToken ++ ascii "-")
        (Or.inl ⟨byte 45, by decide!, by decide!⟩)⟩,
    ⟨⟨encodingOf base62,
        some [3, 201, 141, 22, 46, 81, 208, 188, 154, 24, 251, 133, 94, 219, 72, 71, 135, 186, 36],
        by decide!, by decide!, by decide⟩,
      C10_malformed_token (Branca.mk panickingAEAD) 1 (by decide)
        (ascii "875GH233T7IYrxtgXxlQBYiFo")
        (Or.inr ⟨encodingOf base62,
          some [3, 201, 141, 22, 46, 81, 208, 188, 154, 24, 251, 133, 94, 219, 72, 71, 135, 186,
            36],
          by decide!, by decide!, by decide⟩)⟩⟩


theorem Time.isZero_iff (t : Time) : t.IsZero = true ↔ t = Time.zero := by
  cases t with
  | mk sec nsec => simp [Time.IsZero, Time.zero]

theorem stored_eq (t : Time) :
    (if !t.IsZero then uint32 t.Unix else 0) = (if t = Time.zero then 0 else uint32 t.Unix) := by
  by_cases h : t = Time.zero
  · rw [if_pos h, (Time.isZero_iff t).mpr h]; rfl
  · have : t.IsZero = false := by
      cases hz : t.IsZero with
      | false => rfl
      | true => exact absurd ((Time.isZero_iff t).mp hz) h
    rw [if_neg h, this]; rfl

theorem xchacha_seal_eq (key : List Byte) :
    ∀ dst nonce pt ad, nonce.length = 24 →
      (chacha20poly1305.xchacha20poly1305 key).Seal dst nonce pt ad
        = .ret (dst ++ chacha20poly1305.sealX key nonce pt ad) := by
  intro dst nonce pt ad hn
  simp only [chacha20poly1305.xchacha20poly1305]
  rw [if_neg (by omega)]

/-- C11: with an AEAD whose Seal, given a 24-byte nonce, appends to its
destination a sealed text of len(p) + 16 bytes, the envelope of payload p, nonce n and time t has
1 + 4 + 24 + len(p) + 16 bytes; byte 0 is 0xBA; bytes 1..4 are the stored
timestamp in big-endian order (0 for the zero time, else Unix(t) mod 2^32);
bytes 5..28 are n; and bytes 29.. are the sealed text of p under nonce n
with the first 29 bytes as associated data. -/
theorem C11_envelope_layout (b : Branca)
    (sealed : List Byte → List Byte → List Byte → List Byte)
    (hsealed : ∀ dst nonce pt ad, nonce.length = 24 →
      b.encrypter.Seal dst nonce pt ad = .ret (dst ++ sealed nonce pt ad))
    (hlen : ∀ nonce pt ad, nonce.length = 24 → (sealed nonce pt ad).length = pt.length + 16)
    (p : List Byte) (n : Nonce) (t : Time) :
    ∃ raw, b.EncodeToRawAtTime p n t = .ret raw ∧
      raw.length = 1 + 4 + 24 + p.length + 16 ∧
      raw[0]? = some 0xBA ∧
      (raw.drop 1).take 4 =
        [byte ((if t = Time.zero then 0 else uint32 t.Unix) >>> 24),
          byte ((if t = Time.zero then 0 else uint32 t.Unix) >>> 16),
          byte ((if t = Time.zero then 0 else uint32 t.Unix) >>> 8),
          byte (if t = Time.zero then 0 else uint32 t.Unix)] ∧
      Uint32 ((raw.drop 1).take 4) = .ret (if t = Time.zero then 0 else uint32 t.Unix) ∧
      (raw.drop 5).take 24 = n.val ∧
      raw.drop 29 = sealed n.val p (raw.take 29) := by
  have hn := n.property
  have hts : (if t = Time.zero then 0 else uint32 t.Unix) < 4294967296 := by
    split
    · norm_num
    · exact uint32_lt _
  refine ⟨_, (EncodeToRawAtTime_eq b p n t).trans (hsealed _ _ _ _ hn), ?_⟩
  rw [stored_eq]
  have hl : (version :: byte ((if t = Time.zero then 0 else uint32 t.Unix) >>> 24)
      :: byte ((if t = Time.zero then 0 else uint32 t.Unix) >>> 16)
      :: byte ((if t = Time.zero then 0 else uint32 t.Unix) >>> 8)
      :: byte (if t = Time.zero then 0 else uint32 t.Unix) :: n.val).length = 29 := by
    simp [hn]
  refine ⟨?_, rfl, ?_, ?_, ?_, ?_⟩
  · rw [List.length_append, hl, hlen _ _ _ hn]; omega
  · simp
  · simp only [List.cons_append, List.drop_succ_cons, List.drop_zero, List.take_succ_cons,
      List.take_zero]
    exact Uint32_bytes _ hts []
  · simp only [List.cons_append, List.drop_succ_cons, List.drop_zero]
    rw [List.take_append_of_le_length (by omega)]
    exact List.take_of_length_le (by omega)
  · rw [List.drop_left' hl, List.take_left' hl]

/-- C11 for the Branca value that New builds from the test key with
XChaCha20-Poly1305, the payload "Hello world!", the test nonce and the time
of TestVector1. -/
theorem C11_envelope_layout_witness :
    New chacha20poly1305.NewX testKey
        = .ret (Branca.mk (chacha20poly1305.xchacha20poly1305 testKey.val)) ∧
      (∀ dst nonce pt ad, nonce.length = 24 →
        (chacha20poly1305.xchacha20poly1305 testKey.val).Seal dst nonce pt ad
          = .ret (dst ++ chacha20poly1305.sealX testKey.val nonce pt ad)) ∧
      (∀ nonce pt ad, nonce.length = 24 →
        (chacha20poly1305.sealX testKey.val nonce pt ad).length = pt.length + 16) ∧
      ∃ raw, (Branca.mk (chacha20poly1305.xchacha20poly1305 testKey.val)).EncodeToRawAtTime
          (ascii "Hello world!") testNonce (Time.ofUnix 123206400) = .ret raw ∧
        raw.length = 1 + 4 + 24 + (ascii "Hello world!").length + 16 ∧
        raw[0]? = some 0xBA ∧
        (raw.drop 1).take 4 =
          [byte ((if Time.ofUnix 123206400 = Time.zero then 0
              else uint32 (Time.ofUnix 123206400).Unix) >>> 24),
            byte ((if Time.ofUnix 123206400 = Time.zero then 0
              else uint32 (Time.ofUnix 123206400).Unix) >>> 16),
            byte ((if Time.ofUnix 123206400 = Time.zero then 0
              else uint32 (Time.ofUnix 123206400).Unix) >>> 8),
            byte (if Time.ofUnix 123206400 = Time.zero then 0
              else uint32 (Time.ofUnix 123206400).Unix)] ∧
        Uint32 ((raw.drop 1).take 4) = .ret (if Time.ofUnix 123206400 = Time.zero then 0
          else uint32 (Time.ofUnix 123206400).Unix) ∧
        (raw.drop 5).take 24 = testNonce.val ∧
        raw.drop 29 = chacha20poly1305.sealX testKey.val testNonce.val (ascii "Hello world!")
          (raw.take 29) :=
  ⟨rfl, xchacha_seal_eq testKey.val,
    fun _ pt ad hn => chacha20poly1305.sealX_length testKey.property hn pt ad,
    C11_envelope_layout (Branca.mk (chacha20poly1305.xchacha20poly1305 testKey.val))
      (chacha20poly1305.sealX testKey.val) (xchacha_seal_eq testKey.val)
      (fun _ pt ad hn => chacha20poly1305.sealX_length testKey.property hn pt ad)
      (ascii "Hello world!") testNonce (Time.ofUnix 123206400)⟩

/-- C12: for every Branca value and every byte sequence raw, Base62 of raw
returns a token, and Decode of that token returns exactly what DecodeRaw of
raw returns (payload, time and error). -/
theorem C12_decode_after_base62 (b : Branca) (raw : List Byte) (fuel fuel' : Nat)
    (hf : 8 ≤ fuel) (hf' : 1 ≤ fuel') :
    ∃ tok, Base62 fuel raw = .ret tok ∧ b.Decode fuel' tok = b.DecodeRaw raw := by
  obtain ⟨tok, htok, hback⟩ := Decode_Encode base62_built (by decide) hf hf' raw
  refine ⟨tok, ?_, ?_⟩
  · unfold Base62
    rw [base62Enc_eq]
    exact htok
  · unfold Branca.Decode
    rw [base62Enc_eq]
    simp only
    rw [hback]
    rfl

/-- C12 for the toy AEAD and an envelope whose version byte was changed
(both ways give the authentication error), and for the empty sequence. -/
theorem C12_decode_after_base62_witness :
    (8 ≤ 8 ∧ 1 ≤ 1 ∧ ∃ tok, Base62 8 tamperedEnvelope = .ret tok ∧
      (Branca.mk toyAEAD).Decode 1 tok = (Branca.mk toyAEAD).DecodeRaw tamperedEnvelope) ∧
    (∃ tok, Base62 8 [] = .ret tok ∧
      (Branca.mk toyAEAD).Decode 1 tok = (Branca.mk toyAEAD).DecodeRaw []) :=
  ⟨⟨by decide, by decide,
      C12_decode_after_base62 (Branca.mk toyAEAD) tamperedEnvelope 8 1 (by decide) (by decide)⟩,
    C12_decode_after_base62 (Branca.mk toyAEAD) [] 8 1 (by decide) (by decide)⟩

/-- C13: NewEncoding accepts the base62 constant, so the initialiser of
base62Enc does not panic, and the base is 62; and for every byte v below 62
Base62 of the one byte v is the one character '0' + v for v < 10,
'A' + (v - 10) for v < 36 and 'a' + (v - 36) otherwise. -/
theorem C13_base62_alphabet :
    (∃ e, NewEncoding base62 = .ret (some e, none) ∧ base62Enc = .ret e ∧ e.base = 62) ∧
    (∀ v : Nat, v < 62 → Base62 8 [byte v] =
      .ret [byte (if v < 10 then '0'.toNat + v
        else if v < 36 then 'A'.toNat + (v - 10) else 'a'.toNat + (v - 36))]) :=
  ⟨⟨encodingOf base62, by decide!, by decide!, by decide⟩, by decide!⟩

/-- C13 at the byte 10, which is written "A". -/
theorem C13_base62_alphabet_witness :
    10 < 62 ∧ Base62 8 [byte 10] = .ret (ascii "A") :=
  ⟨by decide, C13_base62_alphabet.2 10 (by decide)⟩


/-- The time that a successful `DecodeRaw` returns is read off the four
timestamp bytes. -/
theorem DecodeRaw_time {b : Branca} {data : List Byte} {out : Option (List Byte)} {t' : Time}
    (h : b.DecodeRaw data = .ret (out, t', none)) :
    ∃ ts : Nat, Uint32 ((data.take (1 + 4)).drop 1) = .ret ts ∧
      t' = if (ts : Int) ≠ 0 then Time.ofUnix ts else Time.zero := by
  unfold Branca.DecodeRaw at h
  split at h
  · cases h
  · simp only at h
    split at h
    · cases h
    · split at h
      · split at h
        · cases h
        · split at h
          · rename_i ts hts
            refine ⟨ts, hts, ?_⟩
            have h2 := congrArg (fun r => r.2.1) (Outcome.ret.inj h)
            exact h2.symm
          · cases h
          · cases h
      · cases h
      · cases h
    · cases h
    · cases h

/-- C19: with an AEAD that opens what it seals, DecodeRaw of the envelope of
payload p, nonce n and time t returns no error and a time that is the zero
time when t is the zero time, and the Unix epoch plus s seconds when t is
not the zero time and s = Unix(t) satisfies 1 ≤ s ≤ 2^32 - 1; the four
timestamp bytes hold Unix(t) mod 2^32 when t is not the zero time; and
whenever DecodeRaw succeeds on bytes whose timestamp field is 0, the time
it returns is the zero time. -/
theorem C19_surviving_timestamps (b : Branca) (hlaw : b.encrypter.Lawful) (p : List Byte)
    (n : Nonce) (t : Time) :
    (∃ raw out t', b.EncodeToRawAtTime p n t = .ret raw ∧
      b.DecodeRaw raw = .ret (out, t', none) ∧
      (t = Time.zero → t' = Time.zero) ∧
      (t ≠ Time.zero → 1 ≤ t.Unix → t.Unix ≤ 4294967295 → t' = Time.ofUnix t.Unix) ∧
      (t ≠ Time.zero → Uint32 ((raw.take (1 + 4)).drop 1) = .ret (t.Unix % 4294967296).toNat)) ∧
    (∀ (data : List Byte) (out : Option (List Byte)) (t' : Time),
      b.DecodeRaw data = .ret (out, t', none) →
      Uint32 ((data.take (1 + 4)).drop 1) = .ret 0 → t' = Time.zero) := by
  constructor
  · obtain ⟨ct, hseal, hctlen, out, hopen, _⟩ := hlaw.seal_open
      (version :: byte ((if !t.IsZero then uint32 t.Unix else 0) >>> 24)
        :: byte ((if !t.IsZero then uint32 t.Unix else 0) >>> 16)
        :: byte ((if !t.IsZero then uint32 t.Unix else 0) >>> 8)
        :: byte (if !t.IsZero then uint32 t.Unix else 0) :: n.val)
      n.val p
      (version :: byte ((if !t.IsZero then uint32 t.Unix else 0) >>> 24)
        :: byte ((if !t.IsZero then uint32 t.Unix else 0) >>> 16)
        :: byte ((if !t.IsZero then uint32 t.Unix else 0) >>> 8)
        :: byte (if !t.IsZero then uint32 t.Unix else 0) :: n.val) n.property
    have hts : (if !t.IsZero then uint32 t.Unix else 0) < 4294967296 := by
      split
      · exact uint32_lt _
      · norm_num
    refine ⟨_, out, _, (EncodeToRawAtTime_eq b p n t).trans hseal,
      DecodeRaw_envelope b _ hts n ct (by omega) out hopen, ?_, ?_, ?_⟩
    · intro h0
      rw [stored_eq, if_pos h0]
      simp
    · intro h0 h1 h2
      rw [stored_eq, if_neg h0]
      have hu : ((uint32 t.Unix : Nat) : Int) = t.Unix := by
        unfold uint32
        omega
      rw [hu, if_pos (by omega)]
    · intro h0
      rw [stored_eq, if_neg h0]
      simp only [List.cons_append, List.take_succ_cons, List.take_zero, List.drop_succ_cons,
        List.drop_zero]
      exact Uint32_bytes _ (uint32_lt _) []
  · intro data out t' h h0
    obtain ⟨ts, hts, ht'⟩ := DecodeRaw_time h
    rw [h0] at hts
    have : ts = 0 := (Outcome.ret.inj hts).symm
    subst this
    simpa using ht'

/-- C19 for the toy AEAD, the payload "Hello world!", the test nonce and the
time of TestVector1. -/
theorem C19_surviving_timestamps_witness :
    toyAEAD.Lawful ∧
    ((∃ raw out t', (Branca.mk toyAEAD).EncodeToRawAtTime (ascii "Hello world!") testNonce
        (Time.ofUnix 123206400) = .ret raw ∧
      (Branca.mk toyAEAD).DecodeRaw raw = .ret (out, t', none) ∧
      (Time.ofUnix 123206400 = Time.zero → t' = Time.zero) ∧
      (Time.ofUnix 123206400 ≠ Time.zero → 1 ≤ (Time.ofUnix 123206400).Unix →
        (Time.ofUnix 123206400).Unix ≤ 4294967295 →
        t' = Time.ofUnix (Time.ofUnix 123206400).Unix) ∧
      (Time.ofUnix 123206400 ≠ Time.zero → Uint32 ((raw.take (1 + 4)).drop 1)
        = .ret ((Time.ofUnix 123206400).Unix % 4294967296).toNat)) ∧
    (∀ (data : List Byte) (out : Option (List Byte)) (t' : Time),
      (Branca.mk toyAEAD).DecodeRaw data = .ret (out, t', none) →
      Uint32 ((data.take (1 + 4)).drop 1) = .ret 0 → t' = Time.zero)) :=
  ⟨toyAEAD_lawful,
    C19_surviving_timestamps (Branca.mk toyAEAD) toyAEAD_lawful (ascii "Hello world!") testNonce
      (Time.ofUnix 123206400)⟩

end branca

namespace basex

theorem Encode_drain_one (fuel : Nat) :
    ∀ (digits : List Nat) (carry : Nat), 0 < carry → Encode.drain 1 fuel digits carry = .spin := by
  induction fuel with
  | zero => intro digits carry h; simp [Encode.drain, h]
  | succ fuel ih =>
    intro digits carry h
    simp only [Encode.drain, gt_iff_lt, h, if_true, Nat.div_one]
    exact ih _ _ h

/-- C17 fails on the code: NewEncoding accepts the one-symbol alphabet "a",
and Encode with that Encoding never leaves the loop `for carry > 0` on the
byte 1, whatever the number of iterations allowed. -/
theorem C17_encode_base_one_spins :
    NewEncoding (ascii "a") = .ret (some (encodingOf (ascii "a")), none) ∧
      ∀ fuel : Nat, (encodingOf (ascii "a")).Encode fuel [1] = .spin := by
  refine ⟨by decide!, ?_⟩
  intro fuel
  have h : Encode.drain 1 fuel (Encode.inner 1 [0] (1 : Byte).val).1
      (Encode.inner 1 [0] (1 : Byte).val).2 = .spin :=
    Encode_drain_one fuel _ _ (by decide)
  have hb : (encodingOf (ascii "a")).base = 1 := by decide
  unfold Encoding.Encode
  rw [if_neg (by decide), hb]
  simp only [Encode.scan]
  rw [h]


theorem ofDigits_replicate_zero (b n : Nat) : Nat.ofDigits b (List.replicate n 0) = 0 := by
  induction n with
  | zero => rfl
  | succ n ih => rw [List.replicate_succ, Nat.ofDigits_cons, ih]; simp

/-- C16: for every Encoding that NewEncoding returns from an alphabet of at
least two symbols (base b) and every byte sequence p, Encode returns a
string whose characters, read most significant first as base-b digits
(the digit of a character is its index in the alphabet), give the same
number as the bytes of p read most significant first in base 256; and for
p not empty the string is the zero-symbols written for the leading zero
bytes followed by a part that is either the single zero-symbol (the number
zero) or starts with a non-zero digit. -/
theorem C16_encode_preserves_value (alphabet : List Byte) (e : Encoding)
    (hnew : NewEncoding alphabet = .ret (some e, none)) (h2 : 2 ≤ alphabet.length)
    (fuel : Nat) (hf : 8 ≤ fuel) (p : List Byte) :
    ∃ s, e.Encode fuel p = .ret s ∧
      (s.map (fun c => List.indexOf c alphabet)).foldl (fun acc d => e.base * acc + d) 0
        = (p.map Fin.val).foldl (fun acc x => 256 * acc + x) 0 ∧
      (p ≠ [] → ∃ rest, s = List.replicate (leading (fun x => x == 0) p) e.zero ++ rest ∧
        (rest = [e.zero] ∨ (rest ≠ [] ∧ rest.head? ≠ some e.zero))) := by
  have hB := NewEncoding_built hnew
  have hb := hB.base_gt h2
  have hlt : ∀ d ∈ convert 256 e.base (p.map Fin.val), d < alphabet.length := by
    intro d hd
    rw [← hB.base_eq]
    exact convert_lt 256 hb _ d hd
  have hlead : leading (fun x => x == 0) (p.map Fin.val) = leading (fun x => x == 0) p := by
    rw [leading_map]
    apply leading_congr
    intro x _
    rw [Bool.eq_iff_iff]
    simp [Fin.ext_iff]
  refine ⟨_, Encode_eq hB h2 hf p, ?_, ?_⟩
  · rw [hB.indexOf_getD _ hlt, foldl_eq_ofDigits, foldl_eq_ofDigits]
    simp only [Nat.zero_mul, Nat.zero_add]
    unfold convert
    split
    · rename_i h0; rw [h0]; rfl
    · rw [List.reverse_append, List.reverse_reverse, Nat.ofDigits_append, List.reverse_replicate,
        ofDigits_replicate_zero, ofDigits_norm]
      simp
  · intro hp
    unfold convert
    rw [if_neg (by simpa using hp), List.map_append, List.map_replicate, hB.getD_zero, hlead]
    refine ⟨_, rfl, ?_⟩
    by_cases hV : Nat.ofDigits 256 (p.map Fin.val).reverse = 0
    · left
      rw [hV]
      simp only [norm, if_true, List.reverse_singleton, List.map_cons, List.map_nil,
        hB.getD_zero]
    · right
      have hn : norm e.base (Nat.ofDigits 256 (p.map Fin.val).reverse)
          = Nat.digits e.base (Nat.ofDigits 256 (p.map Fin.val).reverse) := by
        simp [norm, hV]
      have hdne : Nat.digits e.base (Nat.ofDigits 256 (p.map Fin.val).reverse) ≠ [] :=
        Nat.digits_ne_nil_iff_ne_zero.mpr hV
      rw [hn]
      refine ⟨by simpa using hdne, ?_⟩
      rw [head?_map_reverse _ _ hdne]
      intro hz
      have hlast : (Nat.digits e.base (Nat.ofDigits 256 (p.map Fin.val).reverse)).getLast hdne
          < alphabet.length := by
        rw [← hB.base_eq]
        exact Nat.digits_lt_base hb (List.getLast_mem _)
      exact hB.getD_ne_zero hlast (Nat.getLast_digit_ne_zero e.base hV) (Option.some.inj hz)

/-- C16 at the base62 alphabet and the bytes 0, 0, 1, 255. -/
theorem C16_encode_preserves_value_witness :
    NewEncoding branca.base62 = .ret (some (encodingOf branca.base62), none) ∧
      2 ≤ branca.base62.length ∧ 8 ≤ 8 ∧
      ∃ s, (encodingOf branca.base62).Encode 8 [0, 0, 1, 255] = .ret s ∧
        (s.map (fun c => List.indexOf c branca.base62)).foldl
            (fun acc d => (encodingOf branca.base62).base * acc + d) 0
          = (([0, 0, 1, 255] : List Byte).map Fin.val).foldl (fun acc x => 256 * acc + x) 0 ∧
        (([0, 0, 1, 255] : List Byte) ≠ [] → ∃ rest,
          s = List.replicate (leading (fun x => x == 0) ([0, 0, 1, 255] : List Byte))
              (encodingOf branca.base62).zero ++ rest ∧
          (rest = [(encodingOf branca.base62).zero] ∨
            (rest ≠ [] ∧ rest.head? ≠ some (encodingOf branca.base62).zero))) :=
  ⟨by decide!, by decide, by decide,
    C16_encode_preserves_value branca.base62 (encodingOf branca.base62) (by decide!) (by decide)
      8 (by decide) [0, 0, 1, 255]⟩

theorem Encode_inner_lt {b : Nat} (hb : 0 < b) (ds : List Nat) (c : Nat) :
    ∀ d ∈ (Encode.inner b ds c).1, d < b := by
  rw [Encode_inner_eq hb]
  exact firstDigits_lt hb _ _

theorem Encode_drain_cases {b : Nat} (hb : 0 < b) (fuel : Nat) :
    ∀ (ds : List Nat) (c : Nat), (∀ d ∈ ds, d < b) →
      Encode.drain b fuel ds c = .spin ∨
        ∃ ds', Encode.drain b fuel ds c = .ret ds' ∧ ∀ d ∈ ds', d < b := by
  induction fuel with
  | zero =>
    intro ds c h
    by_cases hc : c > 0
    · left; simp [Encode.drain, hc]
    · right; exact ⟨ds, by simp [Encode.drain, hc], h⟩
  | succ fuel ih =>
    intro ds c h
    by_cases hc : c > 0
    · simp only [Encode.drain, hc, if_true]
      apply ih
      intro d hd
      rcases List.mem_append.mp hd with h1 | h1
      · exact h d h1
      · rw [List.mem_singleton.mp h1]
        exact Nat.mod_lt _ hb
    · right; exact ⟨ds, by simp [Encode.drain, hc], h⟩

theorem Encode_scan_cases {b : Nat} (hb : 0 < b) (fuel : Nat) (source : List Byte) :
    ∀ ds : List Nat, (∀ d ∈ ds, d < b) →
      Encode.scan b fuel source ds = .spin ∨
        ∃ ds', Encode.scan b fuel source ds = .ret ds' ∧ ∀ d ∈ ds', d < b := by
  induction source with
  | nil => intro ds h; right; exact ⟨ds, rfl, h⟩
  | cons x source ih =>
    intro ds _
    simp only [Encode.scan]
    rcases Encode_drain_cases hb fuel _ (Encode.inner b ds x.val).2
      (Encode_inner_lt hb ds x.val) with h1 | ⟨ds', h1, h2⟩
    · left; rw [h1]
    · rw [h1]
      exact ih ds' h2

theorem Encode_cases {alphabet : List Byte} {e : Encoding} (hB : Built alphabet e)
    (fuel : Nat) (p : List Byte) :
    (e.Encode fuel p = .spin ∧ Encode.scan e.base fuel p [0] = .spin) ∨
      ∃ s, e.Encode fuel p = .ret s := by
  have hb : 0 < e.base := by rw [hB.base_eq]; exact hB.len_pos
  unfold Encoding.Encode
  by_cases hp : p.length = 0
  · right; exact ⟨[], by rw [if_pos hp]⟩
  rw [if_neg hp]
  rcases Encode_scan_cases hb fuel p [0] (by simpa using hb) with h1 | ⟨ds, h1, h2⟩
  · left; rw [h1]; exact ⟨rfl, rfl⟩
  · right
    rw [h1]
    simp only
    rw [Encode_zeros_eq _ _ _ _ _ (by omega) (by omega)]
    simp only
    rw [hB.alphabet_eq, Encode_emit_eq alphabet ds
      (fun d hd => by rw [← hB.base_eq]; exact h2 d hd) _ _ (le_refl _)]
    exact ⟨_, rfl⟩

theorem Decode_drain_cases (fuel : Nat) :
    ∀ (bs : List Byte) (v : Nat),
      Decode.drain fuel bs v = .spin ∨ ∃ bs', Decode.drain fuel bs v = .ret bs' := by
  induction fuel with
  | zero =>
    intro bs v
    by_cases hv : v > 0
    · left; simp [Decode.drain, hv]
    · right; exact ⟨bs, by simp [Decode.drain, hv]⟩
  | succ fuel ih =>
    intro bs v
    by_cases hv : v > 0
    · simp only [Decode.drain, hv, if_true]
      exact ih _ _
    · right; exact ⟨bs, by simp [Decode.drain, hv]⟩

theorem Decode_scan_cases (e : Encoding) (fuel : Nat) (source : List Byte) :
    ∀ bs : List Byte, Decode.scan e fuel source bs = .spin ∨
      ∃ r, Decode.scan e fuel source bs = .ret r := by
  induction source with
  | nil => intro bs; right; exact ⟨_, rfl⟩
  | cons c source ih =>
    intro bs
    simp only [Decode.scan]
    by_cases hc : c.val ≥ e.alphabetMap.length
    · right; rw [if_pos hc]; exact ⟨_, rfl⟩
    · obtain ⟨m, hm⟩ : ∃ m, index e.alphabetMap c.val = .ret m :=
        ⟨_, index_eq _ _ (by omega)⟩
      rw [if_neg hc, hm]
      simp only
      by_cases hm0 : m.val = 0
      · right; rw [if_pos hm0]; exact ⟨_, rfl⟩
      · rw [if_neg hm0]
        rcases Decode_drain_cases fuel (Decode.inner e.base bs (m.val - 1)).1
          (Decode.inner e.base bs (m.val - 1)).2 with h1 | ⟨bs', h1⟩
        · left; rw [h1]
        · rw [h1]
          exact ih bs'

theorem Decode_cases (e : Encoding) (fuel : Nat) (s : List Byte) :
    (e.Decode fuel s = .spin ∧ Decode.scan e fuel s [0] = .spin) ∨
      ∃ r, e.Decode fuel s = .ret r := by
  unfold Encoding.Decode
  by_cases hp : s.length = 0
  · right; exact ⟨_, by rw [if_pos hp]⟩
  rw [if_neg hp]
  rcases Decode_scan_cases e fuel s [0] with h1 | ⟨r, h1⟩
  · left; rw [h1]; exact ⟨rfl, rfl⟩
  · right
    rw [h1]
    cases r with
    | error msg => exact ⟨_, rfl⟩
    | ok bytes =>
      simp only
      rw [Decode_zeros_eq _ _ _ _ _ (by omega) (by omega)]
      simp only
      rw [Decode_reverse_all]
      exact ⟨_, rfl⟩


/-- C20: for every Encoding that NewEncoding returns, the reverse table has
128 entries; Encode and Decode never panic on an index, for any input and
any iteration budget, and when they do not return it is the carry loop of
their main loop that did not finish; in particular both leading-zero loops
return on every non-empty input. -/
theorem C20_indexing_in_bounds (alphabet : List Byte) (e : Encoding)
    (hnew : NewEncoding alphabet = .ret (some e, none)) :
    e.alphabetMap.length = 128 ∧
    (∀ (fuel : Nat) (p : List Byte), e.Encode fuel p ≠ .panic ∧
      (e.Encode fuel p = .spin → Encode.scan e.base fuel p [0] = .spin)) ∧
    (∀ (fuel : Nat) (s : List Byte), e.Decode fuel s ≠ .panic ∧
      (e.Decode fuel s = .spin → Decode.scan e fuel s [0] = .spin)) ∧
    (∀ p : List Byte, p ≠ [] →
      (∃ res, Encode.zeros e.zero p (p.length + 1) 0 [] = .ret res) ∧
      (∀ bytes, ∃ res, Decode.zeros e.zero p (p.length + 1) 0 bytes = .ret res)) ∧
    (∀ (fuel : Nat) (p : List Byte) (digits : List Nat),
      Encode.scan e.base fuel p [0] = .ret digits →
      ∃ res, Encode.emit e.alphabet digits digits.length [] = .ret res) := by
  have hB := NewEncoding_built hnew
  have hb : 0 < e.base := by rw [hB.base_eq]; exact hB.len_pos
  refine ⟨hB.map_len, ?_, ?_, ?_, ?_⟩
  · intro fuel p
    rcases Encode_cases hB fuel p with ⟨h1, h2⟩ | ⟨s, h1⟩
    · rw [h1]; exact ⟨by simp, fun _ => h2⟩
    · rw [h1]; exact ⟨by simp, fun h => by cases h⟩
  · intro fuel s
    rcases Decode_cases e fuel s with ⟨h1, h2⟩ | ⟨r, h1⟩
    · rw [h1]; exact ⟨by simp, fun _ => h2⟩
    · rw [h1]; exact ⟨by simp, fun h => by cases h⟩
  · intro p hp
    have hlen : 0 < p.length := List.length_pos.mpr hp
    exact ⟨⟨_, Encode_zeros_eq _ _ _ _ _ hlen (by omega)⟩,
      fun bytes => ⟨_, Decode_zeros_eq _ _ _ _ _ hlen (by omega)⟩⟩
  · intro fuel p digits h
    rcases Encode_scan_cases hb fuel p [0] (by simpa using hb) with h1 | ⟨ds, h1, h2⟩
    · rw [h1] at h; cases h
    · rw [h1] at h
      have := Outcome.ret.inj h
      subst this
      rw [hB.alphabet_eq]
      exact ⟨_, Encode_emit_eq alphabet ds
        (fun d hd => by rw [← hB.base_eq]; exact h2 d hd) _ _ (le_refl _)⟩

/-- C20 at the base62 alphabet. -/
theorem C20_indexing_in_bounds_witness :
    NewEncoding branca.base62 = .ret (some (encodingOf branca.base62), none) ∧
    ((encodingOf branca.base62).alphabetMap.length = 128 ∧
    (∀ (fuel : Nat) (p : List Byte), (encodingOf branca.base62).Encode fuel p ≠ .panic ∧
      ((encodingOf branca.base62).Encode fuel p = .spin →
        Encode.scan (encodingOf branca.base62).base fuel p [0] = .spin)) ∧
    (∀ (fuel : Nat) (s : List Byte), (encodingOf branca.base62).Decode fuel s ≠ .panic ∧
      ((encodingOf branca.base62).Decode fuel s = .spin →
        Decode.scan (encodingOf branca.base62) fuel s [0] = .spin)) ∧
    (∀ p : List Byte, p ≠ [] →
      (∃ res, Encode.zeros (encodingOf branca.base62).zero p (p.length + 1) 0 [] = .ret res) ∧
      (∀ bytes, ∃ res,
        Decode.zeros (encodingOf branca.base62).zero p (p.length + 1) 0 bytes = .ret res)) ∧
    (∀ (fuel : Nat) (p : List Byte) (digits : List Nat),
      Encode.scan (encodingOf branca.base62).base fuel p [0] = .ret digits →
      ∃ res, Encode.emit (encodingOf branca.base62).alphabet digits digits.length []
        = .ret res)) :=
  ⟨by decide!, C20_indexing_in_bounds branca.base62 (encodingOf branca.base62) (by decide!)⟩

theorem fits_of_lt {limit x : Nat} (h : x < limit) : fits limit x = some x := by
  simp [fits, h]

theorem Encode_innerChecked_eq {b : Nat} (hb : 0 < b) (ds : List Nat) :
    ∀ c : Nat, c < 256 → (∀ d ∈ ds, d < b) →
      Encode.innerChecked (256 * b) b ds c = some (Encode.inner b ds c) ∧
        (Encode.inner b ds c).2 < 256 := by
  induction ds with
  | nil => intro c hc _; exact ⟨rfl, hc⟩
  | cons d ds ih =>
    intro c hc hds
    have hd : d < b := hds d (List.mem_cons_self _ _)
    have e2 : d <<< 8 = d * 256 := by rw [Nat.shiftLeft_eq]
    have h1 : c + (d <<< 8) < 256 * b := by
      rw [e2]
      have : (d + 1) * 256 ≤ b * 256 := Nat.mul_le_mul_right 256 hd
      omega
    have h2 : (c + (d <<< 8)) / b < 256 := by
      rw [Nat.div_lt_iff_lt_mul hb]
      exact h1
    have h3 : (c + (d <<< 8)) / b < 256 * b := by
      have : 256 * 1 ≤ 256 * b := Nat.mul_le_mul_left 256 hb
      omega
    obtain ⟨ih1, ih2⟩ := ih _ h2 (fun x hx => hds x (List.mem_cons_of_mem _ hx))
    constructor
    · simp only [Encode.innerChecked, fits_of_lt h1, fits_of_lt h3, ih1, Encode.inner]
    · simpa only [Encode.inner] using ih2

theorem Encode_drainChecked_eq {b : Nat} (hb : 0 < b) (fuel : Nat) :
    ∀ (ds : List Nat) (c : Nat), c < 256 →
      Encode.drainChecked (256 * b) b fuel ds c = some (Encode.drain b fuel ds c) := by
  induction fuel with
  | zero => intro ds c _; rfl
  | succ fuel ih =>
    intro ds c hc
    have h1 : c / b < 256 := lt_of_le_of_lt (Nat.div_le_self _ _) hc
    have h2 : c / b < 256 * b := by
      have : 256 * 1 ≤ 256 * b := Nat.mul_le_mul_left 256 hb
      omega
    simp only [Encode.drainChecked, Encode.drain, fits_of_lt h2]
    split
    · exact ih _ _ h1
    · rfl

theorem Encode_scanChecked_eq {b : Nat} (hb : 0 < b) (fuel : Nat) (source : List Byte) :
    ∀ ds : List Nat, (∀ d ∈ ds, d < b) →
      Encode.scanChecked (256 * b) b fuel source ds = some (Encode.scan b fuel source ds) := by
  induction source with
  | nil => intro ds _; rfl
  | cons x source ih =>
    intro ds hds
    have hx : x.val < 256 * b := by
      have : 256 * 1 ≤ 256 * b := Nat.mul_le_mul_left 256 hb
      have := x.isLt
      omega
    obtain ⟨h1, h2⟩ := Encode_innerChecked_eq hb ds x.val x.isLt hds
    simp only [Encode.scanChecked, Encode.scan, fits_of_lt hx, h1,
      Encode_drainChecked_eq hb fuel _ _ h2]
    rcases Encode_drain_cases hb fuel _ (Encode.inner b ds x.val).2
      (Encode_inner_lt hb ds x.val) with h3 | ⟨ds', h3, h4⟩
    · rw [h3]
    · rw [h3]
      exact ih ds' h4

theorem Decode_innerChecked_eq {b : Nat} (bs : List Byte) :
    ∀ v : Nat, v < b →
      Decode.innerChecked (256 * b) b bs v = some (Decode.inner b bs v) ∧
        (Decode.inner b bs v).2 < b := by
  induction bs with
  | nil => intro v hv; exact ⟨rfl, hv⟩
  | cons x bs ih =>
    intro v hv
    have e3 : ∀ n : Nat, n >>> 8 = n / 256 := fun n => Nat.shiftRight_eq_div_pow n 8
    have hx := x.isLt
    have h1 : v + x.val * b < 256 * b := by
      have : (x.val + 1) * b ≤ 256 * b := Nat.mul_le_mul_right b hx
      linarith
    have h2 : (v + x.val * b) >>> 8 < b := by
      rw [e3, Nat.div_lt_iff_lt_mul (by norm_num)]
      linarith
    have h3 : (v + x.val * b) >>> 8 < 256 * b := by
      have : 1 * b ≤ 256 * b := Nat.mul_le_mul_right b (by norm_num)
      omega
    obtain ⟨ih1, ih2⟩ := ih _ h2
    constructor
    · simp only [Decode.innerChecked, fits_of_lt h1, fits_of_lt h3, ih1, Decode.inner]
    · simpa only [Decode.inner] using ih2

theorem Decode_drainChecked_eq {b : Nat} (fuel : Nat) :
    ∀ (bs : List Byte) (v : Nat), v < b →
      Decode.drainChecked (256 * b) fuel bs v = some (Decode.drain fuel bs v) := by
  induction fuel with
  | zero => intro bs v _; rfl
  | succ fuel ih =>
    intro bs v hv
    have e3 : ∀ n : Nat, n >>> 8 = n / 256 := fun n => Nat.shiftRight_eq_div_pow n 8
    have h1 : v >>> 8 < b := by
      rw [e3]
      exact lt_of_le_of_lt (Nat.div_le_self _ _) hv
    have h2 : v >>> 8 < 256 * b := by
      have : 1 * b ≤ 256 * b := Nat.mul_le_mul_right b (by norm_num)
      omega
    simp only [Decode.drainChecked, Decode.drain, fits_of_lt h2]
    split
    · exact ih _ _ h1
    · rfl

theorem Decode_scanChecked_eq {alphabet : List Byte} {e : Encoding} (hB : Built alphabet e)
    (fuel : Nat) (source : List Byte) :
    ∀ bs : List Byte,
      Decode.scanChecked (256 * e.base) e fuel source bs = some (Decode.scan e fuel source bs) := by
  have hb : 0 < e.base := by rw [hB.base_eq]; exact hB.len_pos
  induction source with
  | nil => intro bs; rfl
  | cons c source ih =>
    intro bs
    simp only [Decode.scanChecked, Decode.scan]
    by_cases hc : c.val ≥ e.alphabetMap.length
    · rw [if_pos hc, if_pos hc]
    rw [if_neg hc, if_neg hc]
    by_cases hmem : c ∈ alphabet
    · obtain ⟨_, h2, h3, h4⟩ := hB.lookup hmem
      have hm : List.indexOf c alphabet + 1 < 256 * e.base := by
        have : 256 * 1 ≤ 256 * e.base := Nat.mul_le_mul_left 256 hb
        omega
      have hm1 : List.indexOf c alphabet + 1 - 1 < 256 * e.base := by
        have : 256 * 1 ≤ 256 * e.base := Nat.mul_le_mul_left 256 hb
        omega
      obtain ⟨h5, h6⟩ := Decode_innerChecked_eq (b := e.base) bs (List.indexOf c alphabet + 1 - 1)
        (by omega)
      rw [h2]
      simp only [h3]
      rw [fits_of_lt hm]
      simp only [if_neg (Nat.succ_ne_zero _)]
      rw [fits_of_lt hm1]
      simp only [h5, Decode_drainChecked_eq fuel _ _ h6]
      rcases Decode_drain_cases fuel (Decode.inner e.base bs (List.indexOf c alphabet + 1 - 1)).1
        (Decode.inner e.base bs (List.indexOf c alphabet + 1 - 1)).2 with h7 | ⟨bs', h7⟩
      · rw [h7]
      · rw [h7]
        exact ih bs'
    · rw [hB.lookup_out hmem (by omega)]
      have h0 : ((0 : Byte) : Nat) < 256 * e.base := by
        have : 256 * 1 ≤ 256 * e.base := Nat.mul_le_mul_left 256 hb
        show 0 < 256 * e.base
        omega
      simp only [fits_of_lt h0]
      rfl


/-- C18: for every Encoding that NewEncoding returns (its base is at most
128), on every input each value assigned to `carry` in Encode and to
`value` in Decode is below 256 * base ≤ 32768: the loops run with
arithmetic that refuses any result of 256 * base or more do exactly what
the loops with exact arithmetic do, so integers of 32 or 64 bits never
overflow.  The carry left by the inner loop of Encode is below 256, the
value left by the inner loop of Decode is below base, and every digit
stored by Encode is below base. -/
theorem C18_no_overflow (alphabet : List Byte) (e : Encoding)
    (hnew : NewEncoding alphabet = .ret (some e, none)) (fuel : Nat) :
    256 * e.base ≤ 32768 ∧
    (∀ p : List Byte, Encode.scanChecked (256 * e.base) e.base fuel p [0]
      = some (Encode.scan e.base fuel p [0])) ∧
    (∀ s : List Byte, Decode.scanChecked (256 * e.base) e fuel s [0]
      = some (Decode.scan e fuel s [0])) ∧
    (∀ (digits : List Nat) (c : Nat), (∀ d ∈ digits, d < e.base) → c < 256 →
      (Encode.inner e.base digits c).2 < 256 ∧
        ∀ d ∈ (Encode.inner e.base digits c).1, d < e.base) ∧
    (∀ (bytes : List Byte) (v : Nat), v < e.base → (Decode.inner e.base bytes v).2 < e.base) ∧
    (∀ (p : List Byte) (digits : List Nat), Encode.scan e.base fuel p [0] = .ret digits →
      ∀ d ∈ digits, d < e.base) := by
  have hB := NewEncoding_built hnew
  have hb : 0 < e.base := by rw [hB.base_eq]; exact hB.len_pos
  have h0 : ∀ d ∈ ([0] : List Nat), d < e.base := by simpa using hb
  refine ⟨?_, ?_, ?_, ?_, ?_, ?_⟩
  · have := hB.len_le
    rw [hB.base_eq]
    omega
  · intro p
    exact Encode_scanChecked_eq hb fuel p [0] h0
  · intro s
    exact Decode_scanChecked_eq hB fuel s [0]
  · intro digits c hd hc
    exact ⟨(Encode_innerChecked_eq hb digits c hc hd).2, Encode_inner_lt hb digits c⟩
  · intro bytes v hv
    exact (Decode_innerChecked_eq bytes v hv).2
  · intro p digits h
    rcases Encode_scan_cases hb fuel p [0] h0 with h1 | ⟨ds, h1, h2⟩
    · rw [h1] at h; cases h
    · rw [h1] at h
      have := Outcome.ret.inj h
      subst this
      exact h2

/-- C18 at the base62 alphabet, with eight iterations allowed to the carry loops. -/
theorem C18_no_overflow_witness :
    NewEncoding branca.base62 = .ret (some (encodingOf branca.base62), none) ∧
    (256 * (encodingOf branca.base62).base ≤ 32768 ∧
    (∀ p : List Byte,
      Encode.scanChecked (256 * (encodingOf branca.base62).base) (encodingOf branca.base62).base
        8 p [0] = some (Encode.scan (encodingOf branca.base62).base 8 p [0])) ∧
    (∀ s : List Byte,
      Decode.scanChecked (256 * (encodingOf branca.base62).base) (encodingOf branca.base62) 8 s [0]
        = some (Decode.scan (encodingOf branca.base62) 8 s [0])) ∧
    (∀ (digits : List Nat) (c : Nat), (∀ d ∈ digits, d < (encodingOf branca.base62).base) →
      c < 256 →
      (Encode.inner (encodingOf branca.base62).base digits c).2 < 256 ∧
        ∀ d ∈ (Encode.inner (encodingOf branca.base62).base digits c).1,
          d < (encodingOf branca.base62).base) ∧
    (∀ (bytes : List Byte) (v : Nat), v < (encodingOf branca.base62).base →
      (Decode.inner (encodingOf branca.base62).base bytes v).2
        < (encodingOf branca.base62).base) ∧
    (∀ (p : List Byte) (digits : List Nat),
      Encode.scan (encodingOf branca.base62).base 8 p [0] = .ret digits →
      ∀ d ∈ digits, d < (encodingOf branca.base62).base)) :=
  ⟨by decide!, C18_no_overflow branca.base62 (encodingOf branca.base62) (by decide!) 8⟩

end basex

namespace branca

/-- C15: with the key "supersecretkeyyoushouldnotcommit", the nonce
0102030405060708090a0b0c0102030405060708090a0b0c, the time 123206400
seconds after the Unix epoch and the payload "Hello world!", Base62 of the
envelope built with XChaCha20-Poly1305 is the token of TestVector1, and
Decode of that token with the same key returns the payload and that time
without error. -/
theorem C15_known_vector :
    (New chacha20poly1305.NewX testKey).bind (fun b =>
        (b.EncodeToRawAtTime (ascii "Hello world!") testNonce (Time.ofUnix 123206400)).bind
          (Base62 8))
      = .ret (ascii
        "875GH233T7IYrxtgXxlQBYiFobZMQdHAT51vChKsAIYCFxZtL1evV54vYqLyZtQ0ekPHt8kJHQp0a") ∧
    (New chacha20poly1305.NewX testKey).bind (fun b => b.Decode 1 (ascii
        "875GH233T7IYrxtgXxlQBYiFobZMQdHAT51vChKsAIYCFxZtL1evV54vYqLyZtQ0ekPHt8kJHQp0a"))
      = .ret (some (ascii "Hello world!"), Time.ofUnix 123206400, none) :=
  ⟨by decide!, by decide!⟩

end branca
